import Mathlib

/-!
Verification of the SWAPI data pipeline (last_assignment.py).

The program manipulates Python values: scalars, lists and string-keyed
dictionaries. We embed them as the inductive type `Value`, with Python
floats modelled as exact rationals. Functions of the helper module
five_oh_six (imported as `utl` by the source) are not part of the staged
sources; each such function is modelled from the spec and carries a doc
comment saying so. Everything defined from `last_assignment.py` itself
follows that file line by line. Fallible Python code (code that can raise)
is embedded with `Option`/`Except`; the mutable module-level cache is
embedded by explicit state passing, and the aliasing/deep-copy behaviour
of the cache is embedded separately by an address-based heap model at the
end of the definitions.
-/

namespace Swapi

/-- Python-like values: the absence marker None, strings, ints, floats
(modelled as exact rationals), lists, and string-keyed dicts. -/
inductive Value : Type where
  | none : Value
  | str (s : String) : Value
  | int (n : Int) : Value
  | float (q : ℚ) : Value
  | list (vs : List Value) : Value
  | dict (fs : List (String × Value)) : Value

/-- A Python dictionary with string keys, in insertion order. -/
abbrev Dict := List (String × Value)

/-- First value stored under a key, scanning in order (Python dicts keep
keys unique, so the first match is the only one). -/
def lookupD : Dict → String → Option Value
  | [], _ => Option.none
  | (k0, v0) :: d, k => if k0 = k then some v0 else lookupD d k

/-- Python `d[k] = v`: replace the value in place when the key exists,
append a new pair otherwise. -/
def dinsert (d : Dict) (k : String) (v : Value) : Dict :=
  if (lookupD d k).isSome then d.map (fun p => if p.1 = k then (p.1, v) else p)
  else d ++ [(k, v)]

/-- Python `d.get(k, None)`. -/
def dGet (d : Dict) (k : String) : Value :=
  match lookupD d k with
  | some v => v
  | Option.none => Value.none

/-- Python `d.update(e)`: overlay `e` onto `d`, `e` winning on key collision,
new keys appended in `e` order. -/
def dupdate (d e : Dict) : Dict :=
  e.foldl (fun acc kv => dinsert acc kv.1 kv.2) d

/-- NONE_VALUES of last_assignment.py (line 9). -/
def NONE_VALUES : List String := ["", "n/a", "none", "unknown"]

/-- Python membership `value in none_values` where none_values is a tuple of
strings: equality with a string succeeds only for an equal string, compared
case-sensitively. -/
def pyInNoneValues (v : Value) (nv : List String) : Bool :=
  match v with
  | Value.str s => nv.contains s
  | _ => false

/-- Python `s.lower()`. -/
def pyLower (s : String) : String := String.mk (s.data.map Char.toLower)

/-- Python `s.strip()`: drop leading and trailing whitespace. -/
def pyStrip (s : String) : String :=
  String.mk (((s.data.dropWhile Char.isWhitespace).reverse.dropWhile
    Char.isWhitespace).reverse)

/-- Modelled from the spec: `to_none(value, sentinel_set)` of five_oh_six
(not in the staged sources) does a case-insensitive, whitespace-trimmed
match against the sentinel set (its entries are lower-case); a match yields
the absence marker, otherwise the value is returned unchanged. -/
def to_none (value : Value) (nv : List String) : Value :=
  match value with
  | Value.str s => if nv.contains (pyLower (pyStrip s)) then Value.none else value
  | _ => value

/-- Numeric value of one decimal digit character. -/
def digitVal (c : Char) : Nat := c.toNat - 48

/-- Numeric value of a list of decimal digit characters, most significant
first. -/
def digitsVal (ds : List Char) : Nat := ds.foldl (fun a c => 10 * a + digitVal c) 0

/-- Every character of the list is a decimal digit. -/
def isDigitList (ds : List Char) : Bool := ds.all (fun c => c.isDigit)

/-- Drop every thousands separator (comma), as `value.replace(",", "")`. -/
def stripSeps (cs : List Char) : List Char := cs.filter (fun c => c ≠ ',')

/-- The character is not a decimal point. -/
def notDot (c : Char) : Bool := c ≠ '.'

/-- Parse a non-negative decimal numeral `digits` or `digits.digits`:
the integer part as a natural number together with the exact rational
value. Anything else is rejected. -/
def parseDecParts (cs : List Char) : Option (Nat × ℚ) :=
  let ip := cs.takeWhile notDot
  match cs.dropWhile notDot with
  | [] =>
    if ip ≠ [] ∧ isDigitList ip then some (digitsVal ip, (digitsVal ip : ℚ))
    else Option.none
  | _ :: fp =>
    if ip ≠ [] ∧ fp ≠ [] ∧ isDigitList ip ∧ isDigitList fp then
      some (digitsVal ip, (digitsVal ip : ℚ) + (digitsVal fp : ℚ) / (10 : ℚ) ^ fp.length)
    else Option.none

/-- Modelled from the spec: `to_int(value)` of five_oh_six parses a string
after stripping thousands separators, discards any trailing fractional
component, and returns the input unchanged when it does not parse as a
non-negative decimal numeral; non-string input is returned unchanged. -/
def to_int (value : Value) : Value :=
  match value with
  | Value.str s =>
    match parseDecParts (stripSeps s.data) with
    | some p => Value.int p.1
    | Option.none => value
  | _ => value

/-- Modelled from the spec: `to_float(value)` of five_oh_six parses a string
after stripping thousands separators, retaining the fractional part, and
returns the input unchanged when it does not parse; non-string input is
returned unchanged. -/
def to_float (value : Value) : Value :=
  match value with
  | Value.str s =>
    match parseDecParts (stripSeps s.data) with
    | some p => Value.float p.2
    | Option.none => value
  | _ => value

/-- Split a character list on a non-empty separator, Python `s.split(sep)`
style; the fuel always suffices when it exceeds the list length. The result
is never empty. -/
def splitFuel (sep : List Char) : Nat → List Char → List Char → List (List Char)
  | 0, rest, acc => [acc.reverse ++ rest]
  | _ + 1, [], acc => [acc.reverse]
  | n + 1, c :: cs, acc =>
    if sep ≠ [] ∧ sep.isPrefixOf (c :: cs) then
      acc.reverse :: splitFuel sep n ((c :: cs).drop sep.length) []
    else
      splitFuel sep n cs (c :: acc)

/-- Python `s.split(sep)` for a non-empty separator string. -/
def pySplit (s sep : String) : List String :=
  (splitFuel sep.data (s.data.length + 1) s.data []).map (fun l => String.mk l)

/-- Modelled from the spec: `to_list(value, delimiter)` of five_oh_six
splits a string on the delimiter; any other input is returned unchanged. -/
def to_list (value : Value) (delimiter : String) : Value :=
  match value with
  | Value.str s => Value.list ((pySplit s delimiter).map Value.str)
  | _ => value

/-- Modelled from the spec: `to_year_era(value)` of five_oh_six parses a
string of the form `<digits><era code>` with era code BBY or ABY into the
dict with keys "year" and "era"; any other input is returned unchanged. -/
def to_year_era (value : Value) : Value :=
  match value with
  | Value.str s =>
    if s.endsWith "BBY" ∨ s.endsWith "ABY" then
      let stem := s.dropRight 3
      if stem.data ≠ [] ∧ isDigitList stem.data then
        Value.dict [("year", Value.int (digitsVal stem.data)), ("era", Value.str (s.takeRight 3))]
      else value
    else value
  | _ => value

/-- Modelled from the spec: `to_gravity_value(value)` of five_oh_six parses
a leading numeric magnitude optionally followed by the case-insensitive
literal "standard" (intervening whitespace allowed), returning a float;
anything else is returned unchanged. -/
def to_gravity_value (value : Value) : Value :=
  match value with
  | Value.str s =>
    let num := s.data.takeWhile (fun c => c.isDigit ∨ c = '.')
    let rest := (s.data.dropWhile (fun c => c.isDigit ∨ c = '.')).filter (fun c => c ≠ ' ')
    match parseDecParts num with
    | some p =>
      if rest.map Char.toLower = [] ∨ rest.map Char.toLower = "standard".data then
        Value.float p.2
      else value
    | Option.none => value
  | _ => value

mutual

/-- Python equality `==` between embedded values. Numeric values compare
across int/float; lists compare elementwise. Dicts are compared entrywise
in order, an approximation of Python order-insensitive dict equality that
the program only ever exercises on scalar-valued comparisons. -/
def pyEq : Value → Value → Bool
  | Value.none, Value.none => true
  | Value.str a, Value.str b => a == b
  | Value.int a, Value.int b => a == b
  | Value.float a, Value.float b => a == b
  | Value.int a, Value.float b => (a : ℚ) == b
  | Value.float a, Value.int b => a == (b : ℚ)
  | Value.list as, Value.list bs => pyEqList as bs
  | Value.dict as, Value.dict bs => pyEqDict as bs
  | _, _ => false

/-- Elementwise Python equality of two lists of values. -/
def pyEqList : List Value → List Value → Bool
  | [], [] => true
  | a :: as, b :: bs => pyEq a b && pyEqList as bs
  | _, _ => false

/-- Entrywise Python equality of two dicts. -/
def pyEqDict : List (String × Value) → List (String × Value) → Bool
  | [], [] => true
  | (k1, v1) :: as, (k2, v2) :: bs => k1 == k2 && pyEq v1 v2 && pyEqDict as bs
  | _, _ => false

end

/-- Modelled from the spec: `get_nested_dict(records, field, target)` of
five_oh_six returns the first record whose `field` value equals the target
(ordered linear scan, first match wins) or the absence marker when none
match. -/
def get_nested_dict (records : List Dict) (field : String) (target : Value) :
    Option Dict :=
  records.find? (fun r =>
    match lookupD r field with
    | some v => pyEq v target
    | Option.none => false)

/-- The Key Mapping Table: for each entity kind, the ordered raw-field to
output-field mapping (keys["planet"].items() and so on). -/
structure KeyMaps : Type where
  planet : List (String × String)
  species : List (String × String)
  droid : List (String × String)
  person : List (String × String)
  starship : List (String × String)

/-- transform_planet of last_assignment.py (lines 525-539): iterate the
planet key mapping; a raw value equal to a member of none_values goes
through to_none, otherwise the field-specific coercion applies, and the
result is stored under the new key. -/
def transform_planet (data : Dict) (keys : KeyMaps) (none_values : List String) :
    Dict :=
  keys.planet.foldl (fun planet kk =>
    let value := dGet data kk.1
    let value :=
      if pyInNoneValues value none_values then to_none value none_values
      else if kk.1 = "suns" ∨ kk.1 = "moons" ∨ kk.1 = "diameter" ∨ kk.1 = "population" then
        to_int value
      else if kk.1 = "orbital_period" then to_float value
      else if kk.1 = "gravity" then to_gravity_value value
      else if kk.1 = "climate" ∨ kk.1 = "terrain" then to_list value ", "
      else value
    dinsert planet kk.2 value) []

/-- transform_species of last_assignment.py (lines 583-593). -/
def transform_species (data : Dict) (keys : KeyMaps) (none_values : List String) :
    Dict :=
  keys.species.foldl (fun species kk =>
    let value := dGet data kk.1
    let value :=
      if pyInNoneValues value none_values then to_none value none_values
      else if kk.1 = "average_height" then to_float value
      else if kk.1 = "average_lifespan" then to_int value
      else value
    dinsert species kk.2 value) []

/-- transform_droid of last_assignment.py (lines 385-397). -/
def transform_droid (data : Dict) (keys : KeyMaps) (none_values : List String) :
    Dict :=
  keys.droid.foldl (fun droid kk =>
    let value := dGet data kk.1
    let value :=
      if pyInNoneValues value none_values then to_none value none_values
      else if kk.1 = "height" ∨ kk.1 = "mass" then to_float value
      else if kk.1 = "create_year" then to_year_era value
      else if kk.1 = "equipment" ∨ kk.1 = "instructions" then to_list value "|"
      else value
    dinsert droid kk.2 value) []

/-- transform_starship of last_assignment.py (lines 648-660). -/
def transform_starship (data : Dict) (keys : KeyMaps) (none_values : List String) :
    Dict :=
  keys.starship.foldl (fun starship kk =>
    let value := dGet data kk.1
    let value :=
      if pyInNoneValues value none_values then to_none value none_values
      else if kk.1 = "length" ∨ kk.1 = "hyperdrive_rating" then to_float value
      else if kk.1 = "MGLT" ∨ kk.1 = "crew" ∨ kk.1 = "passengers" ∨ kk.1 = "cargo_capacity" ∨ kk.1 = "max_atmosphering_speed" then
        to_int value
      else if kk.1 = "armament" then to_list value ","
      else value
    dinsert starship kk.2 value) []

/-- Observable cache effects: a remote fetch for a key, and a write of the
persistence file. -/
inductive Eff : Type where
  | fetched (key : String) : Eff
  | persisted : Eff

/-- The process-wide cache state: the key-value store plus the log of
effects performed so far. -/
structure CacheSt : Type where
  store : Dict
  log : List Eff

/-- The external remote fetcher (utl.get_resource), supplied as an
environment; it may fail. -/
structure FetchEnv : Type where
  fetch : String → Option (List (String × String)) → Except String Value

/-- Modelled from the spec: `create_cache_key(url, params)` of five_oh_six
deterministically combines the endpoint with a canonical encoding of the
query parameters; absent parameters encode to a fixed canonical value. -/
def create_cache_key (url : String) (params : Option (List (String × String))) :
    String :=
  match params with
  | Option.none => pyLower url
  | some ps =>
    pyLower url ++ "?" ++
      String.intercalate "&" (ps.map (fun p => pyLower p.1 ++ "=" ++ pyLower p.2))

/-- get_swapi_resource of last_assignment.py (lines 260-267), at the level
of pure values: on a hit return the stored value (the deep copy returns an
equal value); on a miss fetch, and when the fetch succeeds store the value
and persist, recording the effects; a fetch failure propagates with the
store unchanged and nothing persisted. The aliasing behaviour of the deep
copies is modelled separately by the heap model below. -/
def get_swapi_resource (env : FetchEnv) (url : String)
    (params : Option (List (String × String))) (s : CacheSt) :
    Except String Value × CacheSt :=
  match lookupD s.store (create_cache_key url params) with
  | some v => (Except.ok v, s)
  | Option.none =>
    match env.fetch url params with
    | Except.error e =>
      (Except.error e,
        ⟨s.store, s.log ++ [Eff.fetched (create_cache_key url params)]⟩)
    | Except.ok resource =>
      (Except.ok resource,
        ⟨dinsert s.store (create_cache_key url params) resource,
          s.log ++ [Eff.fetched (create_cache_key url params), Eff.persisted]⟩)

/-- Number of remote fetches for a given key recorded in a log. -/
def fetchCount (log : List Eff) (key : String) : Nat :=
  (log.filter (fun e =>
    match e with
    | Eff.fetched k => k = key
    | Eff.persisted => false)).length

/-- Number of persistence-file writes recorded in a log. -/
def persistCount (log : List Eff) : Nat :=
  (log.filter (fun e =>
    match e with
    | Eff.fetched _ => false
    | Eff.persisted => true)).length

/-- One iteration of the transform_person loop (last_assignment.py lines
457-475) for the key pair `kk`, threading the shared cache state. The
homeworld branch resolves the raw URL through the cache, optionally merges
the first secondary planet matching the resolved name (an empty matched
dict is falsy in Python and skipped), and transforms the merged planet; the
species branch resolves the first element of the raw species value through
the cache and transforms the species. Python errors (a non-string URL
reaching `create_cache_key`, `value["name"]` on a dict without that key,
indexing an empty sequence, transforming a non-dict) are embedded as
`Except.error`. -/
def tpStep (env : FetchEnv) (keys : KeyMaps) (none_values : List String)
    (planets : Option (List Dict)) (data : Dict) (acc : Dict × CacheSt)
    (kk : String × String) : Except String (Dict × CacheSt) :=
  if pyInNoneValues (dGet data kk.1) none_values then
    Except.ok (dinsert acc.1 kk.2 (to_none (dGet data kk.1) none_values), acc.2)
  else if kk.1 = "height" ∨ kk.1 = "mass" then
    Except.ok (dinsert acc.1 kk.2 (to_float (dGet data kk.1)), acc.2)
  else if kk.1 = "birth_year" then
    Except.ok (dinsert acc.1 kk.2 (to_year_era (dGet data kk.1)), acc.2)
  else if kk.1 = "homeworld" then
    match dGet data kk.1 with
    | Value.str u =>
      match get_swapi_resource env u Option.none acc.2 with
      | (Except.ok v, s1) =>
        match (match planets with
          | some ps =>
            if ps.isEmpty then Except.ok v
            else
              match v with
              | Value.dict vd =>
                match lookupD vd "name" with
                | some nm =>
                  match get_nested_dict ps "name" nm with
                  | some w =>
                    Except.ok (if w.isEmpty then Value.dict vd
                      else Value.dict (dupdate vd w))
                  | Option.none => Except.ok (Value.dict vd)
                | Option.none => Except.error "KeyError: name"
              | _ => Except.error "TypeError: value is not a dict"
          | Option.none => Except.ok v : Except String Value) with
        | Except.ok (Value.dict vd2) =>
          Except.ok (dinsert acc.1 kk.2 (Value.dict (transform_planet vd2 keys none_values)), s1)
        | Except.ok _ => Except.error "AttributeError: value is not a dict"
        | Except.error e => Except.error e
      | (Except.error e, _) => Except.error e
    | _ => Except.error "AttributeError: url is not a string"
  else if kk.1 = "species" then
    match (match dGet data kk.1 with
      | Value.list (v0 :: _) => Except.ok v0
      | Value.list [] => Except.error "IndexError: species list is empty"
      | Value.str s =>
        match s.data with
        | c :: _ => Except.ok (Value.str (String.mk [c]))
        | [] => Except.error "IndexError: species string is empty"
      | _ => Except.error "TypeError: value is not subscriptable" : Except String Value) with
    | Except.ok (Value.str u) =>
      match get_swapi_resource env u Option.none acc.2 with
      | (Except.ok (Value.dict vd), s1) =>
        Except.ok (dinsert acc.1 kk.2 (Value.dict (transform_species vd keys none_values)), s1)
      | (Except.ok _, _) => Except.error "AttributeError: value is not a dict"
      | (Except.error e, _) => Except.error e
    | Except.ok _ => Except.error "AttributeError: url is not a string"
    | Except.error e => Except.error e
  else
    Except.ok (dinsert acc.1 kk.2 (dGet data kk.1), acc.2)

/-- The enrichment the claim describes for a resolved homeworld record:
overlay the first secondary planet whose "name" field equals the resolved
record's name (secondary winning on key collision) when one exists. -/
def mergeSecondary (hd : Dict) (planets : List Dict) (nm : Value) : Dict :=
  match get_nested_dict planets "name" nm with
  | some w => dupdate hd w
  | Option.none => hd

/-- transform_person of last_assignment.py (lines 456-476): fold tpStep
over the person key mapping, starting from the empty dict and the given
cache state. -/
def transform_person (env : FetchEnv) (data : Dict) (keys : KeyMaps)
    (none_values : List String) (planets : Option (List Dict)) (s : CacheSt) :
    Except String (Dict × CacheSt) :=
  keys.person.foldlM (tpStep env keys none_values planets data) ([], s)

/-- assign_crew_members of last_assignment.py (line 47): the dict
comprehension over `range(crew_size)`, indexing both tuples; an
out-of-range index raises, embedded as `Option.none`. -/
def assign_crew_members (crew_size : Nat) (crew_positions : List String)
    (personnel : List Value) : Option Dict :=
  (List.range crew_size).foldlM (fun d i =>
    match crew_positions[i]?, personnel[i]? with
    | some p, some q => some (dinsert d p q)
    | _, _ => Option.none) []

/-- board_passengers of last_assignment.py (line 67). -/
def board_passengers (max_passengers : Nat) (passengers : List Value) :
    List Value :=
  passengers.take max_passengers

/-- A New York Times article as calculate_articles_mean_word_count reads
it: the "word_count" entry, an integer or JSON null. -/
structure Article : Type where
  word_count : Option Int

/-- Round a rational to the nearest integer, ties to even (Python round). -/
def roundHalfEven (q : ℚ) : ℤ :=
  if q - ⌊q⌋ < 1 / 2 then ⌊q⌋
  else if q - ⌊q⌋ > 1 / 2 then ⌊q⌋ + 1
  else if Even ⌊q⌋ then ⌊q⌋ else ⌊q⌋ + 1

/-- Python `round(x, 2)` on the exact rational model. -/
def pyRound2 (q : ℚ) : ℚ := (roundHalfEven (q * 100) : ℚ) / 100

/-- calculate_articles_mean_word_count of last_assignment.py (lines 90-96):
sum and count the articles whose "word_count" is truthy (`if
article["word_count"]`) and positive (`> 0`), then divide; a zero count
raises ZeroDivisionError, embedded as `Option.none`. -/
def calculate_articles_mean_word_count (articles : List Article) : Option ℚ :=
  match articles.foldl (fun wc a =>
    match a.word_count with
    | some n => if n ≠ 0 ∧ 0 < n then (wc.1 + n, wc.2 + 1) else wc
    | Option.none => wc) ((0 : ℤ), (0 : ℕ)) with
  | (s, c) => if c = 0 then Option.none else some (pyRound2 ((s : ℚ) / (c : ℚ)))

/-- An article with a truthy, positive word count. -/
def isQual (a : Article) : Bool :=
  match a.word_count with
  | some n => decide (n ≠ 0 ∧ 0 < n)
  | Option.none => false

/-- Total word count of the qualifying articles. -/
def qualSum (articles : List Article) : ℤ :=
  ((articles.filter isQual).map (fun a =>
    match a.word_count with
    | some n => n
    | Option.none => 0)).sum

/-- Number of qualifying articles. -/
def qualCount (articles : List Article) : ℕ := (articles.filter isQual).length

/-- A Clone Wars episode as count_episodes_by_director reads it: the
"episode_director" entry. -/
structure Episode : Type where
  episode_director : String

/-- The credited directors of an episode:
`episode["episode_director"].split(", ")`. -/
def directorsOf (e : Episode) : List String := pySplit e.episode_director ", "

/-- First count stored under a key in the director table. -/
def lookupQ : List (String × ℚ) → String → Option ℚ
  | [], _ => Option.none
  | (k0, x) :: d, k => if k0 = k then some x else lookupQ d k

/-- Add `x` to the count stored under `k`, inserting the key when absent
(the if/else of last_assignment.py lines 176-179). -/
def dAddQ (d : List (String × ℚ)) (k : String) (x : ℚ) : List (String × ℚ) :=
  if (lookupQ d k).isSome then d.map (fun p => if p.1 = k then (p.1, p.2 + x) else p)
  else d ++ [(k, x)]

/-- Process one episode of count_episodes_by_director (lines 172-179):
credit every listed director with 1.0 divided by the number of credited
directors. -/
def stepEpisode (d : List (String × ℚ)) (e : Episode) : List (String × ℚ) :=
  let directors := directorsOf e
  let increment : ℚ := 1 / (directors.length : ℚ)
  directors.foldl (fun acc name => dAddQ acc name increment) d

/-- count_episodes_by_director of last_assignment.py (lines 171-180). -/
def count_episodes_by_director (episodes : List Episode) : List (String × ℚ) :=
  episodes.foldl stepEpisode []

/-- Sum of the per-director counts. -/
def sumQ (d : List (String × ℚ)) : ℚ := (d.map (fun p => p.2)).sum

/-- The count stored for a director, zero when absent. -/
def look0 (d : List (String × ℚ)) (k : String) : ℚ :=
  match lookupQ d k with
  | some x => x
  | Option.none => 0

/-! The address-based heap model of the cache (for the aliasing and
deep-copy guarantees of get_swapi_resource). Python objects live at
addresses; lists and dicts hold addresses of their elements. Mutating an
object is updating the heap at its address. `copy.deepcopy` and the
freshly parsed fetch results are external to the staged sources; a step
that calls one carries, as hypotheses, exactly what the spec guarantees of
it: it returns the root of a freshly allocated region, closed in itself,
denoting the same value. -/

/-- A heap node: a scalar, or a list/dict of addresses. -/
inductive HVal : Type where
  | hnone : HVal
  | hstr (s : String) : HVal
  | hint (n : Int) : HVal
  | hfloat (q : ℚ) : HVal
  | hlist (elems : List Nat) : HVal
  | hdict (fields : List (String × Nat)) : HVal

/-- The addresses a heap node refers to. -/
def children : HVal → List Nat
  | HVal.hlist elems => elems
  | HVal.hdict fields => fields.map Prod.snd
  | _ => []

/-- A heap: a partial map from addresses to nodes. -/
abbrev Heap := Nat → Option HVal

/-- Mutate the object at address `p`. -/
def updateH (h : Heap) (p : Nat) (hv : HVal) : Heap :=
  fun a => if a = p then some hv else h a

/-- One pointer step in the heap. -/
def EdgeH (h : Heap) (a b : Nat) : Prop :=
  ∃ hv, h a = some hv ∧ b ∈ children hv

/-- Reachability through heap pointers (reflexive-transitive). -/
def ReachH (h : Heap) : Nat → Nat → Prop := Relation.ReflTransGen (EdgeH h)

/-- Read the pure value denoted by the object at an address, with fuel
bounding the depth. -/
def readVal (h : Heap) : Nat → Nat → Option Value
  | 0, _ => Option.none
  | n + 1, a =>
    match h a with
    | some HVal.hnone => some Value.none
    | some (HVal.hstr s) => some (Value.str s)
    | some (HVal.hint m) => some (Value.int m)
    | some (HVal.hfloat q) => some (Value.float q)
    | some (HVal.hlist elems) => (elems.mapM (fun b => readVal h n b)).map Value.list
    | some (HVal.hdict fields) =>
      (fields.mapM (fun kf => (readVal h n kf.2).map (fun v => (kf.1, v)))).map Value.dict
    | Option.none => Option.none

/-- Association-list lookup for the cache key table. -/
def lookupA : List (String × Nat) → String → Option Nat
  | [], _ => Option.none
  | (k0, r0) :: d, k => if k0 = k then some r0 else lookupA d k

/-- The full state of the cached-resource system: the heap, the
fresh-address bound, the cache (fingerprint to stored-snapshot address)
and the roots handed out to the caller so far. -/
structure CacheSys : Type where
  heap : Heap
  fresh : Nat
  cache : List (String × Nat)
  caller : List Nat

/-- An address the caller can influence: reachable from a root some call
returned. -/
def CallerR (S : CacheSys) (x : Nat) : Prop :=
  ∃ r ∈ S.caller, ReachH S.heap r x

/-- An address belonging to a stored cache snapshot. -/
def CacheR (S : CacheSys) (x : Nat) : Prop :=
  ∃ k r, lookupA S.cache k = some r ∧ ReachH S.heap r x

/-- `h2` extends `h` with a freshly allocated region `[c, c2)` rooted at
`root`, self-contained (its nodes point only inside the region), leaving
every other address untouched. This is what a fetch result or a deep copy
provides. -/
structure FreshRegion (h h2 : Heap) (c c2 root : Nat) : Prop where
  mono : c ≤ c2
  rootGe : c ≤ root
  rootLt : root < c2
  low : ∀ a, a < c → h2 a = h a
  high : ∀ a, c2 ≤ a → h2 a = h a
  inner : ∀ a hv, c ≤ a → a < c2 → h2 a = some hv → ∀ b ∈ children hv, c ≤ b ∧ b < c2

/-- One step of the system, mirroring get_swapi_resource (lines 260-267)
and arbitrary caller-side mutation. A `hit` returns a deep copy of the
stored snapshot; a `miss` allocates the fetched resource, stores a deep
copy of it, and returns the resource itself; `mutate` overwrites any
object the caller can reach with a node pointing only at objects the
caller can reach. -/
inductive Step : CacheSys → CacheSys → Prop where
  | hit : ∀ (S : CacheSys) (k : String) (r : Nat) (h2 : Heap) (c2 root n : Nat) (v : Value),
      lookupA S.cache k = some r →
      readVal S.heap n r = some v →
      FreshRegion S.heap h2 S.fresh c2 root →
      (∃ m, readVal h2 m root = some v) →
      Step S ⟨h2, c2, S.cache, root :: S.caller⟩
  | miss : ∀ (S : CacheSys) (k : String) (h1 : Heap) (c1 r1 : Nat) (h2 : Heap)
      (c2 r2 : Nat) (v : Value),
      lookupA S.cache k = Option.none →
      FreshRegion S.heap h1 S.fresh c1 r1 →
      (∃ n, readVal h1 n r1 = some v) →
      FreshRegion h1 h2 c1 c2 r2 →
      (∃ m, readVal h2 m r2 = some v) →
      Step S ⟨h2, c2, (k, r2) :: S.cache, r1 :: S.caller⟩
  | mutate : ∀ (S : CacheSys) (p : Nat) (hv : HVal),
      CallerR S p →
      (∀ b ∈ children hv, CallerR S b) →
      Step S ⟨updateH S.heap p hv, S.fresh, S.cache, S.caller⟩

/-- Any number of steps. -/
def StepStar : CacheSys → CacheSys → Prop := Relation.ReflTransGen Step

/-- The system invariant: addresses at or above `fresh` are unallocated,
pointers stay below `fresh`, all roots are allocated below `fresh`, and no
address is both in a stored snapshot and reachable by the caller (the
no-aliasing invariant). -/
structure WFsys (S : CacheSys) : Prop where
  bounded : ∀ a, S.fresh ≤ a → S.heap a = Option.none
  closed : ∀ a hv, S.heap a = some hv → ∀ b ∈ children hv, b < S.fresh
  cacheLt : ∀ k r, lookupA S.cache k = some r → r < S.fresh
  callerLt : ∀ r ∈ S.caller, r < S.fresh
  disj : ∀ x, CacheR S x → CallerR S x → False

/-- Empty initial system state. -/
def initSys : CacheSys := ⟨fun _ => Option.none, 0, [], []⟩

/-- Concrete one-node heap holding the int 5 at address 0 (for the witness
trace). -/
def wHeap1 : Heap := fun a => if a = 0 then some (HVal.hint 5) else Option.none

/-- Concrete heap with the fetched node at address 0 and its deep copy at
address 1. -/
def wHeap2 : Heap := fun a => if a = 1 then some (HVal.hint 5) else wHeap1 a

/-- The state after one miss for key "k" in the witness trace. -/
def wSys1 : CacheSys := ⟨wHeap2, 2, [("k", 1)], [0]⟩

/-- The planet key mapping of data-key_mappings.json, as the
transform_planet docstring lists it (lines 502-514). -/
def planetKeys : List (String × String) :=
  [("url", "url"), ("name", "name"), ("region", "region"), ("sector", "sector"),
    ("suns", "suns"), ("moons", "moons"), ("orbital_period", "orbital_period_days"),
    ("diameter", "diameter_km"), ("gravity", "gravity_std"), ("climate", "climate"),
    ("terrain", "terrain"), ("population", "population")]

/-- The species key mapping (transform_species docstring, lines 565-571). -/
def speciesKeys : List (String × String) :=
  [("url", "url"), ("name", "name"), ("classification", "classification"),
    ("designation", "designation"), ("average_lifespan", "average_lifespan_yrs"),
    ("average_height", "average_height_cm"), ("language", "language")]

/-- The droid key mapping (transform_droid docstring, lines 365-374). -/
def droidKeys : List (String × String) :=
  [("url", "url"), ("name", "name"), ("model", "model"),
    ("manufacturer", "manufacturer"), ("create_year", "create_date"),
    ("height", "height_cm"), ("mass", "mass_kg"), ("equipment", "equipment"),
    ("instructions", "instructions")]

/-- The person key mapping (transform_person docstring, lines 436-444). -/
def personKeys : List (String × String) :=
  [("url", "url"), ("name", "name"), ("birth_year", "birth_date"),
    ("height", "height_cm"), ("mass", "mass_kg"), ("homeworld", "homeworld"),
    ("species", "species"), ("force_sensitive", "force_sensitive")]

/-- The starship key mapping (transform_starship docstring, lines 621-637). -/
def starshipKeys : List (String × String) :=
  [("url", "url"), ("name", "name"), ("model", "model"),
    ("starship_class", "starship_class"), ("manufacturer", "manufacturer"),
    ("length", "length_m"), ("hyperdrive_rating", "hyperdrive_rating"),
    ("MGLT", "max_megalight_hr"),
    ("max_atmosphering_speed", "max_atmosphering_speed_kph"),
    ("crew", "crew_size"), ("crew_members", "crew_members"),
    ("passengers", "max_passengers"), ("passengers_on_board", "passengers_on_board"),
    ("cargo_capacity", "cargo_capacity_kg"), ("consumables", "consumables"),
    ("armament", "armament")]

/-- The full key mapping table of data-key_mappings.json. -/
def stdKeys : KeyMaps := ⟨planetKeys, speciesKeys, droidKeys, personKeys, starshipKeys⟩

/-- A fetch environment whose remote always fails. -/
def emptyFetchEnv : FetchEnv := ⟨fun _ _ => Except.error "network unavailable"⟩

/-- A concrete fetch environment for exercising the person pipeline. -/
def c4Env : FetchEnv :=
  ⟨fun u _ =>
    if u = "p" then Except.ok (Value.dict [("name", Value.str "Tatooine")])
    else if u = "s" then Except.ok (Value.dict [("name", Value.str "Human")])
    else Except.error "network unavailable"⟩

/-- A concrete person raw record. -/
def c4Data : Dict :=
  [("homeworld", Value.str "p"), ("species", Value.list [Value.str "s"])]

/-- A concrete secondary planets dataset. -/
def c4Planets : List Dict :=
  [[("name", Value.str "Tatooine"), ("region", Value.str "Outer Rim")]]

/-- The cache state after resolving the homeworld of c4Data. -/
def c4S1 : CacheSt :=
  ⟨[("p", Value.dict [("name", Value.str "Tatooine")])],
    [Eff.fetched "p", Eff.persisted]⟩

/-- The cache state after also resolving the species of c4Data. -/
def c4S2 : CacheSt :=
  ⟨[("p", Value.dict [("name", Value.str "Tatooine")]),
      ("s", Value.dict [("name", Value.str "Human")])],
    [Eff.fetched "p", Eff.persisted, Eff.fetched "s", Eff.persisted]⟩

/-! Theorems. First the type-coercion library (claim C7), then the
record transformers, the cache, and the analytics. -/

theorem digit_ne_dot (c : Char) (h : c.isDigit = true) : c ≠ '.' := by
  intro hc
  subst hc
  exact absurd h (by decide)

theorem digit_ne_comma (c : Char) (h : c.isDigit = true) : c ≠ ',' := by
  intro hc
  subst hc
  exact absurd h (by decide)

theorem takeWhile_eq_of_append (p : Char → Bool) (ds : List Char) (x : Char)
    (fs : List Char) (hds : ∀ d ∈ ds, p d = true) (hx : p x = false) :
    (ds ++ x :: fs).takeWhile p = ds := by
  induction ds with
  | nil => simp [List.takeWhile_cons, hx]
  | cons d ds ih =>
    have hd : p d = true := hds d (by simp)
    simp only [List.cons_append, List.takeWhile_cons, hd, if_true]
    rw [ih (fun e he => hds e (by simp [he]))]

theorem dropWhile_eq_of_append (p : Char → Bool) (ds : List Char) (x : Char)
    (fs : List Char) (hds : ∀ d ∈ ds, p d = true) (hx : p x = false) :
    (ds ++ x :: fs).dropWhile p = x :: fs := by
  induction ds with
  | nil => simp [List.dropWhile_cons, hx]
  | cons d ds ih =>
    have hd : p d = true := hds d (by simp)
    simp only [List.cons_append, List.dropWhile_cons, hd, if_true]
    exact ih (fun e he => hds e (by simp [he]))

theorem dropWhile_head_false (p : Char → Bool) (l : List Char) (x : Char)
    (xs : List Char) (h : l.dropWhile p = x :: xs) : p x = false := by
  induction l with
  | nil => simp [List.dropWhile] at h
  | cons a l ih =>
    rw [List.dropWhile_cons] at h
    cases hpa : p a with
    | true =>
      rw [if_pos hpa] at h
      exact ih h
    | false =>
      rw [if_neg (by rw [hpa]; exact Bool.false_ne_true)] at h
      injection h with h1 _
      rw [← h1]
      exact hpa

theorem notDot_of_digit (d : Char) (h : d.isDigit = true) : notDot d = true := by
  simp [notDot, digit_ne_dot d h]

theorem parseDecParts_eq_frac (ds fs : List Char) (h1 : ds ≠ []) (h2 : fs ≠ [])
    (h3 : isDigitList ds = true) (h4 : isDigitList fs = true) :
    parseDecParts (ds ++ '.' :: fs) =
      some (digitsVal ds,
        (digitsVal ds : ℚ) + (digitsVal fs : ℚ) / (10 : ℚ) ^ fs.length) := by
  have hds : ∀ d ∈ ds, notDot d = true := fun d hd =>
    notDot_of_digit d (List.all_eq_true.mp h3 d hd)
  have hdot : notDot '.' = false := by decide
  unfold parseDecParts
  rw [takeWhile_eq_of_append notDot ds '.' fs hds hdot,
    dropWhile_eq_of_append notDot ds '.' fs hds hdot]
  dsimp only
  rw [if_pos ⟨h1, h2, h3, h4⟩]

theorem parseDecParts_chars (cs : List Char) (pr : Nat × ℚ)
    (h : parseDecParts cs = some pr) : ∀ c ∈ cs, c.isDigit = true ∨ c = '.' := by
  intro c hc
  have hsplit : cs.takeWhile notDot ++ cs.dropWhile notDot = cs :=
    @List.takeWhile_append_dropWhile _ notDot cs
  cases hdw : cs.dropWhile notDot with
  | nil =>
    rw [hdw, List.append_nil] at hsplit
    unfold parseDecParts at h
    rw [hdw] at h
    dsimp only at h
    split at h
    · rename_i hcond
      left
      exact List.all_eq_true.mp hcond.2 c (by rw [hsplit]; exact hc)
    · exact absurd h (by simp)
  | cons d fp =>
    have hd : d = '.' := by
      have := dropWhile_head_false notDot cs d fp hdw
      simpa [notDot] using this
    unfold parseDecParts at h
    rw [hdw] at h
    dsimp only at h
    split at h
    · rename_i hcond
      rw [hdw] at hsplit
      rw [← hsplit] at hc
      rcases List.mem_append.mp hc with hip | hrest
      · left
        exact List.all_eq_true.mp hcond.2.2.1 c hip
      · rcases List.mem_cons.mp hrest with rfl | hfp
        · right; exact hd
        · left
          exact List.all_eq_true.mp hcond.2.2.2 c hfp
    · exact absurd h (by simp)

theorem stripSeps_mem (cs : List Char) (c : Char) (hc : c ∈ cs) (hcomma : c ≠ ',') :
    c ∈ stripSeps cs := by
  unfold stripSeps
  rw [List.mem_filter]
  exact ⟨hc, by simp [hcomma]⟩

/-- C7. Numeric coercion contract: "506,000,000.9999" parses to int
506000000 and float 506000000.9999; every numeric string with thousands
separators and a trailing fractional component parses to its value with
separators stripped (fraction discarded by to_int, kept by to_float);
every string containing a character that is no digit, dot or separator is
returned unchanged, as is every string the decimal parser rejects; and
both coercions are total, returning either a number or the input itself
for every value. -/
theorem c7_numeric_coercion :
    (to_int (Value.str "506,000,000.9999") = Value.int 506000000 ∧
      to_float (Value.str "506,000,000.9999") =
        Value.float ((5060000009999 : ℚ) / 10000)) ∧
    (∀ (s : String) (ds fs : List Char), stripSeps s.data = ds ++ '.' :: fs →
      ds ≠ [] → fs ≠ [] → isDigitList ds = true → isDigitList fs = true →
      to_int (Value.str s) = Value.int (digitsVal ds) ∧
      to_float (Value.str s) =
        Value.float ((digitsVal ds : ℚ) + (digitsVal fs : ℚ) / (10 : ℚ) ^ fs.length)) ∧
    (∀ (s : String) (c : Char), c ∈ s.data → c.isDigit = false → c ≠ '.' → c ≠ ',' →
      to_int (Value.str s) = Value.str s ∧ to_float (Value.str s) = Value.str s) ∧
    (∀ s : String, parseDecParts (stripSeps s.data) = Option.none →
      to_int (Value.str s) = Value.str s ∧ to_float (Value.str s) = Value.str s) ∧
    (∀ v : Value, ((∃ n, to_int v = Value.int n) ∨ to_int v = v) ∧
      ((∃ q, to_float v = Value.float q) ∨ to_float v = v)) := by
  refine ⟨⟨?_, ?_⟩, ?_, ?_, ?_, ?_⟩
  · rfl
  · have h := parseDecParts_eq_frac ['5', '0', '6', '0', '0', '0', '0', '0', '0']
      ['9', '9', '9', '9'] (by simp) (by simp) (by decide) (by decide)
    show (match parseDecParts (stripSeps ("506,000,000.9999").data) with
      | some p => Value.float p.2
      | Option.none => Value.str "506,000,000.9999") = _
    rw [show stripSeps ("506,000,000.9999").data =
      ['5', '0', '6', '0', '0', '0', '0', '0', '0'] ++ '.' :: ['9', '9', '9', '9'] from rfl, h]
    rw [show digitsVal ['5', '0', '6', '0', '0', '0', '0', '0', '0'] = 506000000 from rfl,
      show digitsVal ['9', '9', '9', '9'] = 9999 from rfl,
      show (['9', '9', '9', '9'] : List Char).length = 4 from rfl]
    norm_num
  · intro s ds fs hsplit h1 h2 h3 h4
    have h := parseDecParts_eq_frac ds fs h1 h2 h3 h4
    constructor
    · show (match parseDecParts (stripSeps s.data) with
        | some p => Value.int p.1
        | Option.none => Value.str s) = _
      rw [hsplit, h]
    · show (match parseDecParts (stripSeps s.data) with
        | some p => Value.float p.2
        | Option.none => Value.str s) = _
      rw [hsplit, h]
  · intro s c hc hdig hdot hcomma
    have hmem : c ∈ stripSeps s.data := stripSeps_mem s.data c hc hcomma
    have hnone : parseDecParts (stripSeps s.data) = Option.none := by
      cases hp : parseDecParts (stripSeps s.data) with
      | none => rfl
      | some pr =>
        rcases parseDecParts_chars _ pr hp c hmem with h | h
        · rw [h] at hdig; cases hdig
        · exact absurd h hdot
    constructor
    · show (match parseDecParts (stripSeps s.data) with
        | some p => Value.int p.1
        | Option.none => Value.str s) = _
      rw [hnone]
    · show (match parseDecParts (stripSeps s.data) with
        | some p => Value.float p.2
        | Option.none => Value.str s) = _
      rw [hnone]
  · intro s hnone
    constructor
    · show (match parseDecParts (stripSeps s.data) with
        | some p => Value.int p.1
        | Option.none => Value.str s) = _
      rw [hnone]
    · show (match parseDecParts (stripSeps s.data) with
        | some p => Value.float p.2
        | Option.none => Value.str s) = _
      rw [hnone]
  · intro v
    constructor
    · cases v with
      | str s =>
        cases hp : parseDecParts (stripSeps s.data) with
        | none =>
          right
          show (match parseDecParts (stripSeps s.data) with
            | some p => Value.int p.1
            | Option.none => Value.str s) = _
          rw [hp]
        | some pr =>
          left
          refine ⟨pr.1, ?_⟩
          show (match parseDecParts (stripSeps s.data) with
            | some p => Value.int p.1
            | Option.none => Value.str s) = _
          rw [hp]
      | none => right; rfl
      | int n => right; rfl
      | float q => right; rfl
      | list vs => right; rfl
      | dict fs => right; rfl
    · cases v with
      | str s =>
        cases hp : parseDecParts (stripSeps s.data) with
        | none =>
          right
          show (match parseDecParts (stripSeps s.data) with
            | some p => Value.float p.2
            | Option.none => Value.str s) = _
          rw [hp]
        | some pr =>
          left
          refine ⟨pr.2, ?_⟩
          show (match parseDecParts (stripSeps s.data) with
            | some p => Value.float p.2
            | Option.none => Value.str s) = _
          rw [hp]
      | none => right; rfl
      | int n => right; rfl
      | float q => right; rfl
      | list vs => right; rfl
      | dict fs => right; rfl

theorem lookupD_eq_none_of_not_mem (d : Dict) (k : String)
    (h : ∀ pr ∈ d, pr.1 ≠ k) : lookupD d k = Option.none := by
  induction d with
  | nil => rfl
  | cons pr d ih =>
    obtain ⟨k0, v0⟩ := pr
    rw [lookupD, if_neg (h (k0, v0) (by simp))]
    exact ih (fun p hp => h p (by simp [hp]))

theorem assign_crew_members_succ (n : Nat) (pos : List String) (pers : List Value) :
    assign_crew_members (n + 1) pos pers =
      (assign_crew_members n pos pers).bind (fun d =>
        match pos[n]?, pers[n]? with
        | some p, some q => some (dinsert d p q)
        | _, _ => Option.none) := by
  unfold assign_crew_members
  rw [List.range_succ, List.foldlM_append]
  cases (List.range n).foldlM (fun d i =>
      match pos[i]?, pers[i]? with
      | some p, some q => some (dinsert d p q)
      | _, _ => Option.none) ([] : Dict) with
  | none => rfl
  | some d =>
    cases hp : pos[n]? with
    | none => simp [List.foldlM, hp]
    | some p =>
      cases hq : pers[n]? with
      | none => simp [List.foldlM, hp, hq]
      | some q => simp [List.foldlM, hp, hq]

/-- C8. assign_crew_members succeeds exactly when the capacity is at most
both input lengths (an out-of-range capacity raises the index-range
error, embedded as Option.none), and on success it returns the position
to personnel mapping built by index, dropping everything past the
capacity. -/
theorem c8_assign_crew_members (n : Nat) (pos : List String) (pers : List Value) :
    ((assign_crew_members n pos pers).isSome ↔ n ≤ pos.length ∧ n ≤ pers.length) ∧
    (n ≤ pos.length → n ≤ pers.length → (pos.take n).Nodup →
      assign_crew_members n pos pers = some ((pos.take n).zip (pers.take n))) := by
  induction n with
  | zero =>
    constructor
    · constructor
      · intro _
        exact ⟨Nat.zero_le _, Nat.zero_le _⟩
      · intro _
        rw [show assign_crew_members 0 pos pers = some [] from rfl]
        rfl
    · intro _ _ _
      rw [show assign_crew_members 0 pos pers = some [] from rfl]
      simp
  | succ n ih =>
    have hsucc := assign_crew_members_succ n pos pers
    constructor
    · cases hprev : assign_crew_members n pos pers with
      | none =>
        rw [hsucc, hprev]
        constructor
        · intro hfalse
          exact absurd hfalse (by simp)
        · intro hle
          have hs : (assign_crew_members n pos pers).isSome :=
            ih.1.mpr ⟨Nat.le_of_succ_le hle.1, Nat.le_of_succ_le hle.2⟩
          rw [hprev] at hs
          exact absurd hs (by simp)
      | some d =>
        have hle : n ≤ pos.length ∧ n ≤ pers.length :=
          ih.1.mp (by rw [hprev]; rfl)
        rw [hsucc, hprev]
        cases hp : pos[n]? with
        | none =>
          have hlen : pos.length ≤ n := by
            by_contra hcon
            rw [List.getElem?_eq_getElem (Nat.lt_of_not_le hcon)] at hp
            cases hp
          constructor
          · intro hfalse
            exact absurd hfalse (by simp)
          · intro hc
            omega
        | some p =>
          have hlp : n < pos.length := by
            by_contra hcon
            rw [List.getElem?_eq_none (Nat.le_of_not_lt hcon)] at hp
            cases hp
          cases hq : pers[n]? with
          | none =>
            have hlen : pers.length ≤ n := by
              by_contra hcon
              rw [List.getElem?_eq_getElem (Nat.lt_of_not_le hcon)] at hq
              cases hq
            constructor
            · intro hfalse
              exact absurd hfalse (by simp)
            · intro hc
              omega
          | some q =>
            have hlq : n < pers.length := by
              by_contra hcon
              rw [List.getElem?_eq_none (Nat.le_of_not_lt hcon)] at hq
              cases hq
            constructor
            · intro _
              exact ⟨hlp, hlq⟩
            · intro _
              rfl
    · intro h1 h2 hnd
      have hlp : n < pos.length := h1
      have hlq : n < pers.length := h2
      have hndn : (pos.take n).Nodup := by
        have hsub : (pos.take n).Sublist (pos.take (n + 1)) := by
          have := List.take_sublist n (pos.take (n + 1))
          rw [List.take_take, Nat.min_eq_left (Nat.le_succ n)] at this
          exact this
        exact hnd.sublist hsub
      have hprev := ih.2 (Nat.le_of_lt hlp) (Nat.le_of_lt hlq) hndn
      rw [hsucc, hprev]
      have hp : pos[n]? = some pos[n] := List.getElem?_eq_getElem hlp
      have hq : pers[n]? = some pers[n] := List.getElem?_eq_getElem hlq
      show (match pos[n]?, pers[n]? with
        | some p, some q => some (dinsert ((pos.take n).zip (pers.take n)) p q)
        | _, _ => Option.none) = _
      rw [hp, hq]
      have hkeys : ∀ pr ∈ (pos.take n).zip (pers.take n), pr.1 ≠ pos[n] := by
        intro pr hpr hfst
        have hmem : pr.1 ∈ pos.take n := by
          have := List.map_fst_zip (pos.take n) (pers.take n)
            (by rw [List.length_take, List.length_take]; omega)
          rw [← this]
          exact List.mem_map_of_mem Prod.fst hpr
        have htk : pos.take (n + 1) = pos.take n ++ [pos[n]] := by
          rw [List.take_succ, List.getElem?_eq_getElem hlp]
          rfl
        rw [htk] at hnd
        rcases List.nodup_append.mp hnd with ⟨_, _, hdisj⟩
        exact hdisj hmem (by simp [hfst])
      show some (dinsert ((pos.take n).zip (pers.take n)) pos[n] pers[n]) =
        some ((pos.take (n + 1)).zip (pers.take (n + 1)))
      rw [show dinsert ((pos.take n).zip (pers.take n)) pos[n] pers[n] =
          (pos.take n).zip (pers.take n) ++ [(pos[n], pers[n])] by
        unfold dinsert
        rw [lookupD_eq_none_of_not_mem _ _ hkeys]
        rfl]
      rw [show pos.take (n + 1) = pos.take n ++ [pos[n]] by
          rw [List.take_succ, List.getElem?_eq_getElem hlp]; rfl,
        show pers.take (n + 1) = pers.take n ++ [pers[n]] by
          rw [List.take_succ, List.getElem?_eq_getElem hlq]; rfl]
      rw [List.zip_append (by rw [List.length_take, List.length_take]; omega)]
      rfl

theorem camwc_foldl (l : List Article) (s : ℤ) (c : ℕ) :
    l.foldl (fun wc a =>
      match a.word_count with
      | some n => if n ≠ 0 ∧ 0 < n then (wc.1 + n, wc.2 + 1) else wc
      | Option.none => wc) (s, c) = (s + qualSum l, c + qualCount l) := by
  induction l generalizing s c with
  | nil => simp [qualSum, qualCount]
  | cons a l ih =>
    rw [List.foldl_cons]
    cases hwc : a.word_count with
    | none =>
      have hq : isQual a = false := by simp [isQual, hwc]
      dsimp only
      rw [ih]
      simp [qualSum, qualCount, List.filter_cons, hq]
    | some n =>
      by_cases hcond : n ≠ 0 ∧ 0 < n
      · have hq : isQual a = true := by simp [isQual, hwc]; omega
        dsimp only
        rw [if_pos hcond]
        rw [ih]
        have hfc : (a :: l).filter isQual = a :: l.filter isQual := by
          rw [List.filter_cons, if_pos hq]
        rw [Prod.mk.injEq]
        constructor
        · show s + n + qualSum l = s + qualSum (a :: l)
          unfold qualSum
          rw [hfc, List.map_cons, List.sum_cons, hwc]
          ring
        · show c + 1 + qualCount l = c + qualCount (a :: l)
          unfold qualCount
          rw [hfc, List.length_cons]
          ring
      · have hq : isQual a = false := by
          simp only [isQual, hwc]
          rw [decide_eq_false_iff_not]
          exact hcond
        dsimp only
        rw [if_neg hcond]
        rw [ih]
        simp [qualSum, qualCount, List.filter_cons, hq]

/-- C10. calculate_articles_mean_word_count raises ZeroDivisionError
(embedded as Option.none) exactly when no article has a truthy, positive
word count — in particular on the empty list — and returns the rounded
mean of the qualifying word counts when at least one article qualifies. -/
theorem c10_mean_word_count (articles : List Article) :
    (calculate_articles_mean_word_count articles = Option.none ↔
      ∀ a ∈ articles, ∀ n, a.word_count = some n → n ≤ 0) ∧
    calculate_articles_mean_word_count [] = Option.none ∧
    ((∃ a ∈ articles, ∃ n, a.word_count = some n ∧ 0 < n) →
      calculate_articles_mean_word_count articles =
        some (pyRound2 ((qualSum articles : ℚ) / (qualCount articles : ℚ)))) := by
  have hqiff : qualCount articles = 0 ↔
      ∀ a ∈ articles, ∀ n, a.word_count = some n → n ≤ 0 := by
    unfold qualCount
    rw [List.length_eq_zero, List.filter_eq_nil_iff]
    constructor
    · intro h a ha n hn
      have hq := h a ha
      simp only [isQual, hn, decide_eq_true_eq] at hq
      omega
    · intro h a ha
      cases hwc : a.word_count with
      | none => simp [isQual, hwc]
      | some n =>
        have hle := h a ha n hwc
        simp only [isQual, hwc, decide_eq_true_eq]
        omega
  have heval : calculate_articles_mean_word_count articles =
      if qualCount articles = 0 then Option.none
      else some (pyRound2 ((qualSum articles : ℚ) / (qualCount articles : ℚ))) := by
    unfold calculate_articles_mean_word_count
    rw [camwc_foldl articles 0 0]
    simp only [zero_add]
  refine ⟨?_, by rfl, ?_⟩
  · rw [heval]
    by_cases hc : qualCount articles = 0
    · rw [if_pos hc]
      simp only [true_iff]
      exact fun a ha n hn => hqiff.mp hc a ha n hn
    · rw [if_neg hc]
      constructor
      · intro h
        cases h
      · intro h
        exact absurd (hqiff.mpr h) hc
  · intro h
    obtain ⟨a, ha, n, hn, hpos⟩ := h
    have hc : qualCount articles ≠ 0 := by
      intro hc
      exact absurd hpos (by simpa using hqiff.mp hc a ha n hn)
    rw [heval, if_neg hc]

theorem splitFuel_ne_nil (sep : List Char) :
    ∀ (n : Nat) (cs acc : List Char), splitFuel sep n cs acc ≠ [] := by
  intro n
  induction n with
  | zero =>
    intro cs acc
    simp [splitFuel]
  | succ n ih =>
    intro cs acc
    cases cs with
    | nil => simp [splitFuel]
    | cons c cs =>
      simp only [splitFuel]
      split
      · simp
      · exact ih cs (c :: acc)

theorem directorsOf_ne_nil (e : Episode) : directorsOf e ≠ [] := by
  unfold directorsOf pySplit
  intro h
  exact splitFuel_ne_nil _ _ _ _ (List.map_eq_nil_iff.mp h)

theorem lookupQ_append_single (d : List (String × ℚ)) (k name : String) (x : ℚ) :
    lookupQ (d ++ [(k, x)]) name =
      match lookupQ d name with
      | some v => some v
      | Option.none => if k = name then some x else Option.none := by
  induction d with
  | nil => rfl
  | cons p d ih =>
    obtain ⟨k0, v0⟩ := p
    by_cases h0 : k0 = name
    · simp [lookupQ, h0]
    · simp only [List.cons_append, lookupQ, if_neg h0]
      exact ih

theorem lookupQ_cons (k0 : String) (v0 : ℚ) (d : List (String × ℚ)) (k : String) :
    lookupQ ((k0, v0) :: d) k = if k0 = k then some v0 else lookupQ d k := rfl

theorem lookupQ_map_add (d : List (String × ℚ)) (k name : String) (x : ℚ) :
    lookupQ (d.map (fun p => if p.1 = k then (p.1, p.2 + x) else p)) name =
      match lookupQ d name with
      | some v => if name = k then some (v + x) else some v
      | Option.none => Option.none := by
  induction d with
  | nil => rfl
  | cons p d ih =>
    obtain ⟨k0, v0⟩ := p
    rw [List.map_cons]
    by_cases hk : k0 = k
    · rw [show (if ((k0, v0) : String × ℚ).1 = k then ((k0, v0).1, (k0, v0).2 + x)
        else (k0, v0)) = (k0, v0 + x) from if_pos hk]
      rw [lookupQ_cons, lookupQ_cons]
      by_cases hn : k0 = name
      · rw [if_pos hn, if_pos hn]
        have hnk : name = k := by rw [← hn, hk]
        simp [hnk]
      · rw [if_neg hn, if_neg hn]
        exact ih
    · rw [show (if ((k0, v0) : String × ℚ).1 = k then ((k0, v0).1, (k0, v0).2 + x)
        else (k0, v0)) = (k0, v0) from if_neg hk]
      rw [lookupQ_cons, lookupQ_cons]
      by_cases hn : k0 = name
      · rw [if_pos hn, if_pos hn]
        have hnk : ¬(name = k) := fun h => hk (hn.trans h)
        simp [hnk]
      · rw [if_neg hn, if_neg hn]
        exact ih

theorem lookupQ_none_not_mem (k : String) :
    ∀ (d : List (String × ℚ)), lookupQ d k = Option.none → ∀ p ∈ d, p.1 ≠ k := by
  intro d
  induction d with
  | nil =>
    intro _ p hp
    cases hp
  | cons q d ih =>
    obtain ⟨k0, v0⟩ := q
    intro hl p hp
    rcases List.mem_cons.mp hp with rfl | hq
    · intro hfst
      rw [lookupQ, if_pos hfst] at hl
      cases hl
    · unfold lookupQ at hl
      split at hl
      · cases hl
      · exact ih hl p hq

theorem look0_dAddQ (d : List (String × ℚ)) (k name : String) (x : ℚ) :
    look0 (dAddQ d k x) name = look0 d name + if name = k then x else 0 := by
  unfold dAddQ
  cases hl : lookupQ d k with
  | none =>
    rw [if_neg (by simp)]
    unfold look0
    rw [lookupQ_append_single]
    by_cases hn : name = k
    · subst hn
      rw [hl]
      simp
    · have hkn : ¬(k = name) := fun h => hn h.symm
      cases hv : lookupQ d name with
      | none => simp [hkn, hn]
      | some v => simp [hn]
  | some v =>
    rw [if_pos (show (Option.some v).isSome = true from rfl)]
    unfold look0
    rw [lookupQ_map_add]
    by_cases hn : name = k
    · subst hn
      rw [hl]
      simp
    · cases hv : lookupQ d name with
      | none => simp [hn]
      | some w => simp [hn]

theorem keysQ_dAddQ (d : List (String × ℚ)) (k : String) (x : ℚ)
    (hnd : (d.map Prod.fst).Nodup) : ((dAddQ d k x).map Prod.fst).Nodup := by
  unfold dAddQ
  cases hl : lookupQ d k with
  | none =>
    rw [if_neg (by simp)]
    rw [List.map_append]
    rw [List.nodup_append]
    refine ⟨hnd, by simp, ?_⟩
    intro a ha hb
    simp only [List.map_cons, List.map_nil, List.mem_singleton] at hb
    subst hb
    rcases List.mem_map.mp ha with ⟨p, hp, hfst⟩
    exact lookupQ_none_not_mem a d hl p hp hfst
  | some v =>
    rw [if_pos (show (Option.some v).isSome = true from rfl)]
    have hkeys : (d.map (fun p => if p.1 = k then (p.1, p.2 + x) else p)).map Prod.fst =
        d.map Prod.fst := by
      rw [List.map_map]
      apply List.map_congr_left
      intro p _
      by_cases hp : p.1 = k
      · simp [hp]
      · simp [hp]
    rw [hkeys]
    exact hnd

theorem map_keep_of_not_mem (d : List (String × ℚ)) (k : String) (x : ℚ)
    (h : ∀ p ∈ d, p.1 ≠ k) :
    d.map (fun p => if p.1 = k then (p.1, p.2 + x) else p) = d := by
  induction d with
  | nil => rfl
  | cons p d ih =>
    rw [List.map_cons, if_neg (h p (by simp)), ih (fun q hq => h q (by simp [hq]))]

theorem sumQ_map_add (k : String) (x : ℚ) :
    ∀ (d : List (String × ℚ)), (d.map Prod.fst).Nodup →
      (lookupQ d k).isSome = true →
      sumQ (d.map (fun p => if p.1 = k then (p.1, p.2 + x) else p)) = sumQ d + x := by
  intro d
  induction d with
  | nil =>
    intro _ hl
    cases hl
  | cons p d ih =>
    obtain ⟨k0, v0⟩ := p
    intro hnd hl
    by_cases h0 : k0 = k
    · subst h0
      have hnotin : ∀ q ∈ d, q.1 ≠ k0 := by
        intro q hq hfst
        simp only [List.map_cons, List.nodup_cons] at hnd
        exact hnd.1 (hfst ▸ List.mem_map.mpr ⟨q, hq, rfl⟩)
      rw [List.map_cons]
      rw [show (if ((k0, v0) : String × ℚ).1 = k0 then ((k0, v0).1, (k0, v0).2 + x)
        else (k0, v0)) = (k0, v0 + x) from if_pos rfl]
      rw [map_keep_of_not_mem d k0 x hnotin]
      unfold sumQ
      simp only [List.map_cons, List.sum_cons]
      ring
    · rw [lookupQ, if_neg h0] at hl
      have hnd2 : (d.map Prod.fst).Nodup := by
        simp only [List.map_cons, List.nodup_cons] at hnd
        exact hnd.2
      rw [List.map_cons]
      rw [show (if ((k0, v0) : String × ℚ).1 = k then ((k0, v0).1, (k0, v0).2 + x)
        else (k0, v0)) = (k0, v0) from if_neg h0]
      have hsum := ih hnd2 hl
      unfold sumQ at hsum ⊢
      simp only [List.map_cons, List.sum_cons]
      rw [show ((d.map fun p => if p.1 = k then (p.1, p.2 + x) else p).map fun p => p.2).sum =
        ((d.map fun p => p.2).sum + x) from hsum]
      ring

theorem sumQ_dAddQ (d : List (String × ℚ)) (k : String) (x : ℚ)
    (hnd : (d.map Prod.fst).Nodup) : sumQ (dAddQ d k x) = sumQ d + x := by
  unfold dAddQ
  cases hl : (lookupQ d k).isSome with
  | false =>
    rw [if_neg (by simp [hl])]
    unfold sumQ
    rw [List.map_append, List.sum_append]
    simp
  | true =>
    rw [if_pos rfl]
    exact sumQ_map_add k x d hnd hl

theorem foldl_dAddQ_sum (names : List String) (inc : ℚ) :
    ∀ (d : List (String × ℚ)), (d.map Prod.fst).Nodup →
      sumQ (names.foldl (fun acc name => dAddQ acc name inc) d) =
        sumQ d + (names.length : ℚ) * inc ∧
      (((names.foldl (fun acc name => dAddQ acc name inc) d).map Prod.fst).Nodup) := by
  induction names with
  | nil =>
    intro d hnd
    simp [hnd]
  | cons name names ih =>
    intro d hnd
    rw [List.foldl_cons]
    have h1 := sumQ_dAddQ d name inc hnd
    have h2 := keysQ_dAddQ d name inc hnd
    obtain ⟨hs, hn⟩ := ih (dAddQ d name inc) h2
    refine ⟨?_, hn⟩
    rw [hs, h1, List.length_cons]
    push_cast
    ring

theorem foldl_dAddQ_look0 (names : List String) (inc : ℚ) (target : String) :
    ∀ (d : List (String × ℚ)),
      look0 (names.foldl (fun acc name => dAddQ acc name inc) d) target =
        look0 d target + (names.count target : ℚ) * inc := by
  induction names with
  | nil =>
    intro d
    simp
  | cons name names ih =>
    intro d
    rw [List.foldl_cons, ih (dAddQ d name inc), look0_dAddQ]
    rw [List.count_cons]
    by_cases hn : target = name
    · rw [if_pos hn, if_pos (by simp [hn])]
      push_cast
      ring
    · rw [if_neg hn, if_neg (fun h => hn (beq_iff_eq.mp h).symm)]
      push_cast
      ring

theorem stepEpisode_sum (d : List (String × ℚ)) (e : Episode)
    (hnd : (d.map Prod.fst).Nodup) :
    sumQ (stepEpisode d e) = sumQ d + 1 ∧
      ((stepEpisode d e).map Prod.fst).Nodup := by
  unfold stepEpisode
  obtain ⟨hs, hn⟩ := foldl_dAddQ_sum (directorsOf e) (1 / ((directorsOf e).length : ℚ)) d hnd
  refine ⟨?_, hn⟩
  rw [hs]
  have hlen : ((directorsOf e).length : ℚ) ≠ 0 := by
    have := directorsOf_ne_nil e
    have hpos : 0 < (directorsOf e).length := List.length_pos.mpr this
    exact_mod_cast Nat.pos_iff_ne_zero.mp hpos
  field_simp

/-- C9. Director-credit distribution: processing an episode adds exactly
occurrences times 1/n to each director's accumulated count, where n is
the number of credited directors (so exactly 1/n for a director listed
once), and the total credit mass over all episodes equals the episode
count. -/
theorem c9_director_credit (episodes : List Episode) :
    sumQ (count_episodes_by_director episodes) = (episodes.length : ℚ) ∧
    (∀ (d : List (String × ℚ)) (e : Episode) (name : String),
      look0 (stepEpisode d e) name =
        look0 d name +
          ((directorsOf e).count name : ℚ) * (1 / ((directorsOf e).length : ℚ))) := by
  constructor
  · have hmain : ∀ (l : List Episode) (d : List (String × ℚ)),
        (d.map Prod.fst).Nodup →
        sumQ (l.foldl stepEpisode d) = sumQ d + (l.length : ℚ) ∧
          ((l.foldl stepEpisode d).map Prod.fst).Nodup := by
      intro l
      induction l with
      | nil =>
        intro d hnd
        simp [hnd]
      | cons e l ih =>
        intro d hnd
        rw [List.foldl_cons]
        obtain ⟨hs1, hn1⟩ := stepEpisode_sum d e hnd
        obtain ⟨hs2, hn2⟩ := ih (stepEpisode d e) hn1
        refine ⟨?_, hn2⟩
        rw [hs2, hs1, List.length_cons]
        push_cast
        ring
    have := (hmain episodes [] (by simp)).1
    unfold count_episodes_by_director
    rw [this]
    simp [sumQ]
  · intro d e name
    unfold stepEpisode
    exact foldl_dAddQ_look0 (directorsOf e) _ name d

/-- C2 (evaluation of the code at the failing input): the transformers
guard to_none with the case-sensitive membership test `value in
none_values` (lines 528, 388), so a raw value matching a sentinel only
case-insensitively, such as "Unknown" or "N/A ", is not normalized: it is
handed to the numeric parser and survives unchanged in the output, while
to_none itself — which the docstrings promise is applied irrespective of
case — would map it to the absence marker. -/
theorem c2_sentinel_eval :
    transform_planet [("population", Value.str "Unknown")] stdKeys NONE_VALUES =
      [("url", Value.none), ("name", Value.none), ("region", Value.none),
        ("sector", Value.none), ("suns", Value.none), ("moons", Value.none),
        ("orbital_period_days", Value.none), ("diameter_km", Value.none),
        ("gravity_std", Value.none), ("climate", Value.none),
        ("terrain", Value.none), ("population", Value.str "Unknown")] ∧
    transform_droid [("height", Value.str "N/A ")]
        ⟨[], [], [("height", "height_cm")], [], []⟩ NONE_VALUES =
      [("height_cm", Value.str "N/A ")] ∧
    to_none (Value.str "Unknown") NONE_VALUES = Value.none ∧
    to_none (Value.str "N/A ") NONE_VALUES = Value.none := by
  refine ⟨?_, rfl, rfl, rfl⟩
  rfl

/-- C3 (evaluation of the code at the failing input): transform_person on
a raw record with no "homeworld" entry does not assign the absence marker
as its docstring promises; the absent value reaches the resolution step,
which fails (in Python, create_cache_key/requests raise on a None URL). -/
theorem c3_person_missing_homeworld_eval :
    transform_person emptyFetchEnv [] stdKeys NONE_VALUES Option.none ⟨[], []⟩ =
      Except.error "AttributeError: url is not a string" := by
  rfl

theorem lookupD_cons (k0 : String) (v0 : Value) (d : Dict) (k : String) :
    lookupD ((k0, v0) :: d) k = if k0 = k then some v0 else lookupD d k := rfl

theorem lookupD_append_single (d : Dict) (k name : String) (v : Value) :
    lookupD (d ++ [(k, v)]) name =
      match lookupD d name with
      | some w => some w
      | Option.none => if k = name then some v else Option.none := by
  induction d with
  | nil => rfl
  | cons p d ih =>
    obtain ⟨k0, v0⟩ := p
    by_cases h0 : k0 = name
    · simp [lookupD, h0]
    · simp only [List.cons_append, lookupD, if_neg h0]
      exact ih

theorem lookupD_map_set (d : Dict) (k name : String) (v : Value) :
    lookupD (d.map (fun p => if p.1 = k then (p.1, v) else p)) name =
      match lookupD d name with
      | some w => if name = k then some v else some w
      | Option.none => Option.none := by
  induction d with
  | nil => rfl
  | cons p d ih =>
    obtain ⟨k0, v0⟩ := p
    rw [List.map_cons]
    by_cases hk : k0 = k
    · rw [show (if ((k0, v0) : String × Value).1 = k then ((k0, v0).1, v)
        else (k0, v0)) = (k0, v) from if_pos hk]
      rw [lookupD_cons, lookupD_cons]
      by_cases hn : k0 = name
      · rw [if_pos hn, if_pos hn]
        have hnk : name = k := by rw [← hn, hk]
        simp [hnk]
      · rw [if_neg hn, if_neg hn]
        exact ih
    · rw [show (if ((k0, v0) : String × Value).1 = k then ((k0, v0).1, v)
        else (k0, v0)) = (k0, v0) from if_neg hk]
      rw [lookupD_cons, lookupD_cons]
      by_cases hn : k0 = name
      · rw [if_pos hn, if_pos hn]
        have hnk : ¬(name = k) := fun h => hk (hn.trans h)
        simp [hnk]
      · rw [if_neg hn, if_neg hn]
        exact ih

theorem lookupD_dinsert_self (d : Dict) (k : String) (v : Value) :
    lookupD (dinsert d k v) k = some v := by
  unfold dinsert
  cases hl : lookupD d k with
  | none =>
    rw [if_neg (by simp)]
    rw [lookupD_append_single, hl]
    simp
  | some w =>
    rw [if_pos (show (Option.some w).isSome = true from rfl)]
    rw [lookupD_map_set, hl]
    simp

theorem lookupD_dinsert_other (d : Dict) (k name : String) (v : Value)
    (hne : name ≠ k) : lookupD (dinsert d k v) name = lookupD d name := by
  unfold dinsert
  cases hl : lookupD d k with
  | none =>
    rw [if_neg (by simp)]
    rw [lookupD_append_single]
    have hkn : ¬(k = name) := fun h => hne h.symm
    cases hv : lookupD d name with
    | none => simp [hkn]
    | some w => simp
  | some w =>
    rw [if_pos (show (Option.some w).isSome = true from rfl)]
    rw [lookupD_map_set]
    cases hv : lookupD d name with
    | none => simp
    | some w2 => simp [hne]

theorem fetchCount_append (l1 l2 : List Eff) (key : String) :
    fetchCount (l1 ++ l2) key = fetchCount l1 key + fetchCount l2 key := by
  unfold fetchCount
  rw [List.filter_append, List.length_append]

theorem persistCount_append (l1 l2 : List Eff) :
    persistCount (l1 ++ l2) = persistCount l1 + persistCount l2 := by
  unfold persistCount
  rw [List.filter_append, List.length_append]

/-- C5. Single fetch per fingerprint: a resolution whose fingerprint is
in the store returns the stored value with the state — store, effect log,
persistence — completely untouched; and two successive resolutions with
equivalent fingerprints, starting from a store without that fingerprint,
record exactly one fetch for it in total. -/
theorem c5_single_fetch :
    (∀ (env : FetchEnv) (url : String) (params : Option (List (String × String)))
      (s : CacheSt) (v : Value),
      lookupD s.store (create_cache_key url params) = some v →
      get_swapi_resource env url params s = (Except.ok v, s)) ∧
    (∀ (env : FetchEnv) (u1 u2 : String)
      (p1 p2 : Option (List (String × String))) (s : CacheSt) (v : Value),
      create_cache_key u2 p2 = create_cache_key u1 p1 →
      lookupD s.store (create_cache_key u1 p1) = Option.none →
      env.fetch u1 p1 = Except.ok v →
      fetchCount (get_swapi_resource env u2 p2
          (get_swapi_resource env u1 p1 s).2).2.log (create_cache_key u1 p1) =
        fetchCount s.log (create_cache_key u1 p1) + 1 ∧
      (get_swapi_resource env u2 p2 (get_swapi_resource env u1 p1 s).2).1 =
        Except.ok v) := by
  constructor
  · intro env url params s v hhit
    unfold get_swapi_resource
    rw [hhit]
  · intro env u1 u2 p1 p2 s v heq hmiss hfetch
    have h1 : get_swapi_resource env u1 p1 s =
        (Except.ok v, ⟨dinsert s.store (create_cache_key u1 p1) v,
          s.log ++ [Eff.fetched (create_cache_key u1 p1), Eff.persisted]⟩) := by
      unfold get_swapi_resource
      rw [hmiss, hfetch]
    rw [h1]
    have h2 : get_swapi_resource env u2 p2
        ⟨dinsert s.store (create_cache_key u1 p1) v,
          s.log ++ [Eff.fetched (create_cache_key u1 p1), Eff.persisted]⟩ =
        (Except.ok v, ⟨dinsert s.store (create_cache_key u1 p1) v,
          s.log ++ [Eff.fetched (create_cache_key u1 p1), Eff.persisted]⟩) := by
      unfold get_swapi_resource
      rw [heq, lookupD_dinsert_self]
    rw [h2]
    refine ⟨?_, rfl⟩
    rw [fetchCount_append]
    simp [fetchCount]

/-- C6. Fetch-failure atomicity: on a cache miss whose fetch fails, the
error propagates unchanged to the caller, the store is exactly as before,
and nothing is persisted. -/
theorem c6_fetch_failure_atomic (env : FetchEnv) (url : String)
    (params : Option (List (String × String))) (s : CacheSt) (e : String)
    (hmiss : lookupD s.store (create_cache_key url params) = Option.none)
    (herr : env.fetch url params = Except.error e) :
    (get_swapi_resource env url params s).1 = Except.error e ∧
    (get_swapi_resource env url params s).2.store = s.store ∧
    persistCount (get_swapi_resource env url params s).2.log =
      persistCount s.log := by
  have h1 : get_swapi_resource env url params s =
      (Except.error e,
        ⟨s.store, s.log ++ [Eff.fetched (create_cache_key url params)]⟩) := by
    unfold get_swapi_resource
    rw [hmiss, herr]
  rw [h1]
  refine ⟨rfl, rfl, ?_⟩
  rw [persistCount_append]
  simp [persistCount]

theorem c6_fetch_failure_atomic_witness :
    (get_swapi_resource emptyFetchEnv "u" Option.none ⟨[], []⟩).1 =
      Except.error "network unavailable" ∧
    (get_swapi_resource emptyFetchEnv "u" Option.none ⟨[], []⟩).2.store =
      (⟨[], []⟩ : CacheSt).store ∧
    persistCount (get_swapi_resource emptyFetchEnv "u" Option.none ⟨[], []⟩).2.log =
      persistCount (⟨[], []⟩ : CacheSt).log :=
  c6_fetch_failure_atomic emptyFetchEnv "u" Option.none ⟨[], []⟩
    "network unavailable" rfl rfl

theorem foldlM_except_step {α β : Type} (f : β → α → Except String β) (b b' : β)
    (a : α) (l : List α) (h : f b a = Except.ok b') :
    List.foldlM f b (a :: l) = List.foldlM f b' l := by
  show f b a >>= (fun x => List.foldlM f x l) = _
  rw [h]
  rfl

theorem tpStep_pure (env : FetchEnv) (keys : KeyMaps) (nv : List String)
    (planets : Option (List Dict)) (data : Dict) (acc : Dict × CacheSt)
    (kk : String × String) (h1 : kk.1 ≠ "homeworld") (h2 : kk.1 ≠ "species") :
    ∃ w, tpStep env keys nv planets data acc kk =
      Except.ok (dinsert acc.1 kk.2 w, acc.2) := by
  unfold tpStep
  by_cases hA : pyInNoneValues (dGet data kk.1) nv
  · rw [if_pos hA]
    exact ⟨_, rfl⟩
  · rw [if_neg hA]
    by_cases hB : kk.1 = "height" ∨ kk.1 = "mass"
    · rw [if_pos hB]
      exact ⟨_, rfl⟩
    · rw [if_neg hB]
      by_cases hC : kk.1 = "birth_year"
      · rw [if_pos hC]
        exact ⟨_, rfl⟩
      · rw [if_neg hC, if_neg h1, if_neg h2]
        exact ⟨_, rfl⟩

theorem tpStep_homeworld (env : FetchEnv) (keys : KeyMaps) (nv : List String)
    (planets : List Dict) (data : Dict) (acc : Dict × CacheSt)
    (hw : String) (hne : planets ≠ [])
    (hval : dGet data "homeworld" = Value.str hw)
    (hnv : pyInNoneValues (Value.str hw) nv = false)
    (hd : Dict) (s1 : CacheSt)
    (hres : get_swapi_resource env hw Option.none acc.2 =
      (Except.ok (Value.dict hd), s1))
    (nm : Value) (hnm : lookupD hd "name" = some nm) :
    tpStep env keys nv (some planets) data acc ("homeworld", "homeworld") =
      Except.ok (dinsert acc.1 "homeworld"
        (Value.dict (transform_planet (mergeSecondary hd planets nm) keys nv)), s1) := by
  unfold tpStep
  dsimp only
  rw [hval]
  rw [if_neg (by simp [hnv])]
  rw [if_neg (by decide), if_neg (by decide), if_pos rfl]
  try dsimp only
  rw [hres]
  try dsimp only
  rw [if_neg (by rw [List.isEmpty_iff]; exact hne)]
  try dsimp only
  rw [hnm]
  try dsimp only
  unfold mergeSecondary
  cases hgn : get_nested_dict planets "name" nm with
  | none => rfl
  | some w =>
    cases w with
    | nil => rfl
    | cons q w => rfl

theorem tpStep_species (env : FetchEnv) (keys : KeyMaps) (nv : List String)
    (planets : Option (List Dict)) (data : Dict) (acc : Dict × CacheSt)
    (su : String) (rest : List Value)
    (hval : dGet data "species" = Value.list (Value.str su :: rest))
    (sd : Dict) (s1 : CacheSt)
    (hres : get_swapi_resource env su Option.none acc.2 =
      (Except.ok (Value.dict sd), s1)) :
    tpStep env keys nv planets data acc ("species", "species") =
      Except.ok (dinsert acc.1 "species"
        (Value.dict (transform_species sd keys nv)), s1) := by
  unfold tpStep
  dsimp only
  rw [hval]
  rw [if_neg (by simp [pyInNoneValues])]
  rw [if_neg (by decide), if_neg (by decide), if_neg (by decide), if_pos rfl]
  try dsimp only
  rw [hres]

set_option maxHeartbeats 1000000 in
/-- C4. Person enrichment pipeline: with the standard person key mapping,
the output "homeworld" field is the raw homeworld URL resolved through the
cache, overlaid with the first secondary planet whose "name" equals the
resolved record's name (secondary winning) when one exists, then passed
through transform_planet; the output "species" field is the first element
of the raw species list resolved through the cache (in the state the
homeworld resolution left behind) and passed through transform_species;
and the output carries exactly the mapped field names in order. -/
theorem c4_person_enrichment (env : FetchEnv) (data : Dict) (keys : KeyMaps)
    (planets : List Dict) (s0 : CacheSt)
    (hkeys : keys.person = personKeys)
    (hne : planets ≠ [])
    (hw : String) (hhw : dGet data "homeworld" = Value.str hw)
    (hnv : pyInNoneValues (Value.str hw) NONE_VALUES = false)
    (hd : Dict) (s1 : CacheSt)
    (hres1 : get_swapi_resource env hw Option.none s0 =
      (Except.ok (Value.dict hd), s1))
    (nm : Value) (hnm : lookupD hd "name" = some nm)
    (su : String) (rest : List Value)
    (hsp : dGet data "species" = Value.list (Value.str su :: rest))
    (sd : Dict) (s2 : CacheSt)
    (hres2 : get_swapi_resource env su Option.none s1 =
      (Except.ok (Value.dict sd), s2)) :
    ∃ p : Dict,
      transform_person env data keys NONE_VALUES (some planets) s0 =
        Except.ok (p, s2) ∧
      lookupD p "homeworld" =
        some (Value.dict (transform_planet (mergeSecondary hd planets nm) keys
          NONE_VALUES)) ∧
      lookupD p "species" =
        some (Value.dict (transform_species sd keys NONE_VALUES)) ∧
      p.map Prod.fst = personKeys.map Prod.snd := by
  obtain ⟨w1, h1⟩ := tpStep_pure env keys NONE_VALUES (some planets) data
    ([], s0) ("url", "url") (by decide) (by decide)
  obtain ⟨w2, h2⟩ := tpStep_pure env keys NONE_VALUES (some planets) data
    (dinsert [] "url" w1, s0) ("name", "name") (by decide) (by decide)
  obtain ⟨w3, h3⟩ := tpStep_pure env keys NONE_VALUES (some planets) data
    (dinsert (dinsert [] "url" w1) "name" w2, s0) ("birth_year", "birth_date")
    (by decide) (by decide)
  obtain ⟨w4, h4⟩ := tpStep_pure env keys NONE_VALUES (some planets) data
    (dinsert (dinsert (dinsert [] "url" w1) "name" w2) "birth_date" w3, s0)
    ("height", "height_cm") (by decide) (by decide)
  obtain ⟨w5, h5⟩ := tpStep_pure env keys NONE_VALUES (some planets) data
    (dinsert (dinsert (dinsert (dinsert [] "url" w1) "name" w2) "birth_date" w3)
      "height_cm" w4, s0) ("mass", "mass_kg") (by decide) (by decide)
  have h6 := tpStep_homeworld env keys NONE_VALUES planets data
    (dinsert (dinsert (dinsert (dinsert (dinsert [] "url" w1) "name" w2)
      "birth_date" w3) "height_cm" w4) "mass_kg" w5, s0)
    hw hne hhw hnv hd s1 hres1 nm hnm
  have h7 := tpStep_species env keys NONE_VALUES (some planets) data
    (dinsert (dinsert (dinsert (dinsert (dinsert (dinsert [] "url" w1) "name" w2)
      "birth_date" w3) "height_cm" w4) "mass_kg" w5) "homeworld"
      (Value.dict (transform_planet (mergeSecondary hd planets nm) keys
        NONE_VALUES)), s1)
    su rest hsp sd s2 hres2
  obtain ⟨w8, h8⟩ := tpStep_pure env keys NONE_VALUES (some planets) data
    (dinsert (dinsert (dinsert (dinsert (dinsert (dinsert (dinsert [] "url" w1)
      "name" w2) "birth_date" w3) "height_cm" w4) "mass_kg" w5) "homeworld"
      (Value.dict (transform_planet (mergeSecondary hd planets nm) keys
        NONE_VALUES))) "species"
      (Value.dict (transform_species sd keys NONE_VALUES)), s2)
    ("force_sensitive", "force_sensitive") (by decide) (by decide)
  refine ⟨dinsert (dinsert (dinsert (dinsert (dinsert (dinsert (dinsert
    (dinsert [] "url" w1) "name" w2) "birth_date" w3) "height_cm" w4)
    "mass_kg" w5) "homeworld"
    (Value.dict (transform_planet (mergeSecondary hd planets nm) keys
      NONE_VALUES))) "species"
    (Value.dict (transform_species sd keys NONE_VALUES)))
    "force_sensitive" w8, ?_, rfl, rfl, rfl⟩
  unfold transform_person
  rw [hkeys]
  rw [show personKeys = ("url", "url") :: ("name", "name") ::
    ("birth_year", "birth_date") :: ("height", "height_cm") ::
    ("mass", "mass_kg") :: ("homeworld", "homeworld") :: ("species", "species") ::
    ("force_sensitive", "force_sensitive") :: [] from rfl]
  rw [foldlM_except_step _ _ _ _ _ h1]
  try dsimp only
  rw [foldlM_except_step _ _ _ _ _ h2]
  try dsimp only
  rw [foldlM_except_step _ _ _ _ _ h3]
  try dsimp only
  rw [foldlM_except_step _ _ _ _ _ h4]
  try dsimp only
  rw [foldlM_except_step _ _ _ _ _ h5]
  try dsimp only
  rw [foldlM_except_step _ _ _ _ _ h6]
  try dsimp only
  rw [foldlM_except_step _ _ _ _ _ h7]
  try dsimp only
  rw [foldlM_except_step _ _ _ _ _ h8]
  try dsimp only
  rfl

theorem c4_person_enrichment_witness :
    ∃ p : Dict,
      transform_person c4Env c4Data stdKeys NONE_VALUES (some c4Planets)
          ⟨[], []⟩ =
        Except.ok (p, c4S2) ∧
      lookupD p "homeworld" =
        some (Value.dict (transform_planet
          (mergeSecondary [("name", Value.str "Tatooine")] c4Planets
            (Value.str "Tatooine")) stdKeys NONE_VALUES)) ∧
      lookupD p "species" =
        some (Value.dict (transform_species [("name", Value.str "Human")]
          stdKeys NONE_VALUES)) ∧
      p.map Prod.fst = personKeys.map Prod.snd :=
  c4_person_enrichment c4Env c4Data stdKeys c4Planets ⟨[], []⟩ rfl
    (List.cons_ne_nil _ _) "p" rfl rfl [("name", Value.str "Tatooine")] c4S1 rfl
    (Value.str "Tatooine") rfl "s" [] rfl [("name", Value.str "Human")] c4S2 rfl

/-! Lemmas for the heap model (claim C1). -/

theorem mapM_option_congr {α β : Type} (f g : α → Option β) (xs : List α)
    (h : ∀ b ∈ xs, f b = g b) : xs.mapM f = xs.mapM g := by
  induction xs with
  | nil => rfl
  | cons a xs ih =>
    rw [List.mapM_cons, List.mapM_cons, h a (by simp),
      ih (fun b hb => h b (by simp [hb]))]

theorem mapM_option_some_mono {α β : Type} (f g : α → Option β) (xs : List α)
    (h : ∀ b ∈ xs, ∀ v, f b = some v → g b = some v) :
    ∀ l, xs.mapM f = some l → xs.mapM g = some l := by
  induction xs with
  | nil =>
    intro l hl
    exact hl
  | cons a xs ih =>
    intro l hl
    rw [List.mapM_cons] at hl ⊢
    cases hfa : f a with
    | none =>
      rw [hfa] at hl
      simp at hl
    | some v =>
      rw [hfa] at hl
      cases hxs : xs.mapM f with
      | none =>
        rw [hxs] at hl
        simp at hl
      | some l2 =>
        rw [hxs] at hl
        rw [h a (by simp) v hfa,
          ih (fun b hb w hw => h b (by simp [hb]) w hw) l2 hxs]
        simpa using hl

theorem reach_lt (h : Heap) (n : Nat)
    (hcl : ∀ a hv, h a = some hv → ∀ b ∈ children hv, b < n)
    (r x : Nat) (hr : r < n) (hx : ReachH h r x) : x < n := by
  induction hx with
  | refl => exact hr
  | tail hab hbc ih =>
    obtain ⟨hv, hb, hc⟩ := hbc
    exact hcl _ hv hb _ hc

theorem reach_congr (h h2 : Heap) (r : Nat)
    (hag : ∀ x, ReachH h r x → h2 x = h x) :
    ∀ x, ReachH h2 r x ↔ ReachH h r x := by
  intro x
  constructor
  · intro hx
    induction hx with
    | refl => exact Relation.ReflTransGen.refl
    | tail hab hbc ih =>
      obtain ⟨hv, hb, hc⟩ := hbc
      rw [hag _ ih] at hb
      exact Relation.ReflTransGen.tail ih ⟨hv, hb, hc⟩
  · intro hx
    induction hx with
    | refl => exact Relation.ReflTransGen.refl
    | tail hab hbc ih =>
      obtain ⟨hv, hb, hc⟩ := hbc
      exact Relation.ReflTransGen.tail ih ⟨hv, (hag _ hab).trans hb, hc⟩

theorem readVal_congr (h h2 : Heap) (n : Nat) :
    ∀ (r : Nat), (∀ x, ReachH h r x → h2 x = h x) →
      readVal h2 n r = readVal h n r := by
  induction n with
  | zero =>
    intro r _
    rfl
  | succ n ih =>
    intro r hag
    have hr : h2 r = h r := hag r Relation.ReflTransGen.refl
    show (match h2 r with
      | some HVal.hnone => some Value.none
      | some (HVal.hstr s) => some (Value.str s)
      | some (HVal.hint m) => some (Value.int m)
      | some (HVal.hfloat q) => some (Value.float q)
      | some (HVal.hlist elems) => (elems.mapM (fun b => readVal h2 n b)).map Value.list
      | some (HVal.hdict fields) =>
        (fields.mapM (fun kf : String × Nat =>
          (readVal h2 n kf.2).map (fun v => (kf.1, v)))).map Value.dict
      | Option.none => Option.none) =
      (match h r with
      | some HVal.hnone => some Value.none
      | some (HVal.hstr s) => some (Value.str s)
      | some (HVal.hint m) => some (Value.int m)
      | some (HVal.hfloat q) => some (Value.float q)
      | some (HVal.hlist elems) => (elems.mapM (fun b => readVal h n b)).map Value.list
      | some (HVal.hdict fields) =>
        (fields.mapM (fun kf : String × Nat =>
          (readVal h n kf.2).map (fun v => (kf.1, v)))).map Value.dict
      | Option.none => Option.none)
    rw [hr]
    cases hhv : h r with
    | none => rfl
    | some hv =>
      cases hv with
      | hnone => rfl
      | hstr s => rfl
      | hint m => rfl
      | hfloat q => rfl
      | hlist elems =>
        show ((elems.mapM (fun b => readVal h2 n b)).map Value.list) = _
        rw [mapM_option_congr (fun b => readVal h2 n b) (fun b => readVal h n b)
          elems (fun b hb => ih b (fun x hx => hag x
            (Relation.ReflTransGen.head ⟨_, hhv, hb⟩ hx)))]
      | hdict fields =>
        show ((fields.mapM (fun kf => (readVal h2 n kf.2).map (fun v => (kf.1, v)))).map
          Value.dict) = _
        rw [mapM_option_congr
          (fun kf : String × Nat => (readVal h2 n kf.2).map (fun v => (kf.1, v)))
          (fun kf : String × Nat => (readVal h n kf.2).map (fun v => (kf.1, v)))
          fields (fun kf hkf => by
            dsimp only
            rw [ih kf.2 (fun x hx => hag x (Relation.ReflTransGen.head
              ⟨_, hhv, List.mem_map_of_mem Prod.snd hkf⟩ hx))])]

theorem readVal_succ (h : Heap) (n : Nat) (r : Nat) :
    readVal h (n + 1) r =
      (match h r with
      | some HVal.hnone => some Value.none
      | some (HVal.hstr s) => some (Value.str s)
      | some (HVal.hint m) => some (Value.int m)
      | some (HVal.hfloat q) => some (Value.float q)
      | some (HVal.hlist elems) => (elems.mapM (fun b => readVal h n b)).map Value.list
      | some (HVal.hdict fields) =>
        (fields.mapM (fun kf : String × Nat =>
          (readVal h n kf.2).map (fun v => (kf.1, v)))).map Value.dict
      | Option.none => Option.none) := rfl

theorem readVal_mono (h : Heap) :
    ∀ (n r : Nat) (v : Value), readVal h n r = some v →
      readVal h (n + 1) r = some v := by
  intro n
  induction n with
  | zero =>
    intro r v hv
    cases hv
  | succ n ih =>
    intro r v hv
    rw [readVal_succ] at hv ⊢
    cases hhv : h r with
    | none =>
      rw [hhv] at hv
      cases hv
    | some hval =>
      rw [hhv] at hv
      cases hval with
      | hnone => exact hv
      | hstr s => exact hv
      | hint m => exact hv
      | hfloat q => exact hv
      | hlist elems =>
        dsimp only at hv ⊢
        cases hm : elems.mapM (fun b => readVal h n b) with
        | none =>
          rw [hm] at hv
          cases hv
        | some l =>
          rw [hm] at hv
          rw [mapM_option_some_mono (fun b => readVal h n b)
            (fun b => readVal h (n + 1) b) elems
            (fun b _ w hw => ih b w hw) l hm]
          exact hv
      | hdict fields =>
        dsimp only at hv ⊢
        cases hm : fields.mapM (fun kf : String × Nat =>
            (readVal h n kf.2).map (fun v => (kf.1, v))) with
        | none =>
          rw [hm] at hv
          cases hv
        | some l =>
          rw [hm] at hv
          rw [mapM_option_some_mono
            (fun kf : String × Nat => (readVal h n kf.2).map (fun v => (kf.1, v)))
            (fun kf : String × Nat => (readVal h (n + 1) kf.2).map (fun v => (kf.1, v)))
            fields (fun kf _ w hw => by
              dsimp only at hw ⊢
              cases hkv : readVal h n kf.2 with
              | none =>
                rw [hkv] at hw
                cases hw
              | some kv =>
                rw [hkv] at hw
                rw [ih kf.2 kv hkv]
                exact hw) l hm]
          exact hv

theorem readVal_mono_le (h : Heap) (n m : Nat) (hle : n ≤ m) :
    ∀ (r : Nat) (v : Value), readVal h n r = some v → readVal h m r = some v := by
  induction hle with
  | refl => exact fun r v hv => hv
  | step hle2 ih =>
    exact fun r v hv => readVal_mono h _ r v (ih r v hv)

theorem readVal_unique (h : Heap) (n m r : Nat) (v w : Value)
    (hv : readVal h n r = some v) (hw : readVal h m r = some w) : v = w := by
  rcases Nat.le_total n m with hle | hle
  · have := readVal_mono_le h n m hle r v hv
    rw [this] at hw
    cases hw
    rfl
  · have := readVal_mono_le h m n hle r w hw
    rw [this] at hv
    cases hv
    rfl

theorem region_agree (h h2 : Heap) (c c2 root : Nat)
    (hfr : FreshRegion h h2 c c2 root)
    (hcl : ∀ a hv, h a = some hv → ∀ b ∈ children hv, b < c)
    (r : Nat) (hr : r < c) : ∀ x, ReachH h r x → h2 x = h x := by
  intro x hx
  exact hfr.low x (reach_lt h c hcl r x hr hx)

theorem region_reach_fresh (h h2 : Heap) (c c2 root : Nat)
    (hfr : FreshRegion h h2 c c2 root) :
    ∀ x, ReachH h2 root x → c ≤ x ∧ x < c2 := by
  intro x hx
  induction hx with
  | refl => exact ⟨hfr.rootGe, hfr.rootLt⟩
  | tail hab hbc ih =>
    obtain ⟨hv, hbv, hc⟩ := hbc
    exact hfr.inner _ hv ih.1 ih.2 hbv _ hc

theorem update_agree_outside (h : Heap) (p : Nat) (hv : HVal) (r : Nat)
    (hnp : ¬ ReachH h r p) : ∀ x, ReachH h r x → updateH h p hv x = h x := by
  intro x hx
  unfold updateH
  have hxp : ¬(x = p) := fun he => hnp (he ▸ hx)
  rw [if_neg hxp]

theorem lookupA_cons (k0 : String) (r0 : Nat) (c : List (String × Nat))
    (k : String) :
    lookupA ((k0, r0) :: c) k = if k0 = k then some r0 else lookupA c k := rfl

theorem wf_reach_lt (S : CacheSys) (hwf : WFsys S) (r : Nat) (hr : r < S.fresh) :
    ∀ x, ReachH S.heap r x → x < S.fresh :=
  fun x hx => reach_lt S.heap S.fresh hwf.closed r x hr hx

theorem caller_reach_mutate (S : CacheSys) (p : Nat) (hv : HVal)
    (hch : ∀ b ∈ children hv, CallerR S b) :
    ∀ (x r : Nat), r ∈ S.caller → ReachH (updateH S.heap p hv) r x →
      CallerR S x := by
  intro x r hr hx
  induction hx with
  | refl => exact ⟨r, hr, Relation.ReflTransGen.refl⟩
  | tail hab hbc ih =>
    obtain ⟨hv2, hb, hc⟩ := hbc
    rename_i b c
    by_cases hbp : b = p
    · subst hbp
      rw [updateH, if_pos rfl] at hb
      injection hb with hb2
      subst hb2
      exact hch _ hc
    · rw [updateH, if_neg hbp] at hb
      obtain ⟨r2, hr2, hreach2⟩ := ih
      exact ⟨r2, hr2, Relation.ReflTransGen.tail hreach2 ⟨hv2, hb, hc⟩⟩

theorem cache_root_not_reach_p (S : CacheSys) (hwf : WFsys S) (p : Nat)
    (hp : CallerR S p) (k : String) (rc : Nat)
    (hk : lookupA S.cache k = some rc) : ¬ ReachH S.heap rc p :=
  fun hreach => hwf.disj p ⟨k, rc, hk, hreach⟩ hp

theorem step_preserves_WF (S S2 : CacheSys) (hwf : WFsys S) (hst : Step S S2) :
    WFsys S2 := by
  cases hst with
  | hit k r h2 c2 root n v hk hread hfr hcopy =>
    have hagree : ∀ (rr : Nat), rr < S.fresh →
        ∀ x, ReachH S.heap rr x → h2 x = S.heap x :=
      fun rr hrr => region_agree S.heap h2 S.fresh c2 root hfr hwf.closed rr hrr
    refine ⟨?_, ?_, ?_, ?_, ?_⟩ <;> try dsimp only
    · intro a ha
      rw [hfr.high a ha]
      exact hwf.bounded a (le_trans hfr.mono ha)
    · intro a hv ha b hb
      by_cases h1 : a < S.fresh
      · rw [hfr.low a h1] at ha
        exact lt_of_lt_of_le (hwf.closed a hv ha b hb) hfr.mono
      · by_cases h2a : a < c2
        · exact (hfr.inner a hv (Nat.le_of_not_lt h1) h2a ha b hb).2
        · rw [hfr.high a (Nat.le_of_not_lt h2a)] at ha
          rw [hwf.bounded a (le_trans hfr.mono (Nat.le_of_not_lt h2a))] at ha
          cases ha
    · intro k2 r2 hk2
      exact lt_of_lt_of_le (hwf.cacheLt k2 r2 hk2) hfr.mono
    · intro rr hrr
      rcases List.mem_cons.mp hrr with rfl | hold
      · exact hfr.rootLt
      · exact lt_of_lt_of_le (hwf.callerLt rr hold) hfr.mono
    · intro x hcx hcallx
      obtain ⟨k2, rc, hk2, hreach⟩ := hcx
      have hrc : rc < S.fresh := hwf.cacheLt k2 rc hk2
      have hreachS : ReachH S.heap rc x :=
        (reach_congr S.heap h2 rc (hagree rc hrc) x).mp hreach
      have hxlt : x < S.fresh := wf_reach_lt S hwf rc hrc x hreachS
      obtain ⟨rr, hrr, hreach2⟩ := hcallx
      rcases List.mem_cons.mp hrr with rfl | hold
      · have := (region_reach_fresh S.heap h2 S.fresh c2 rr hfr x hreach2).1
        omega
      · have hreach2S : ReachH S.heap rr x :=
          (reach_congr S.heap h2 rr (hagree rr (hwf.callerLt rr hold)) x).mp hreach2
        exact hwf.disj x ⟨k2, rc, hk2, hreachS⟩ ⟨rr, hold, hreach2S⟩
  | miss k h1 c1 r1 h2 c2 r2 v hk hfr1 hread1 hfr2 hread2 =>
    have hb1 : ∀ a, c1 ≤ a → h1 a = Option.none := by
      intro a ha
      rw [hfr1.high a ha]
      exact hwf.bounded a (le_trans hfr1.mono ha)
    have hcl1 : ∀ a hv, h1 a = some hv → ∀ b ∈ children hv, b < c1 := by
      intro a hv ha b hb
      by_cases hlow : a < S.fresh
      · rw [hfr1.low a hlow] at ha
        exact lt_of_lt_of_le (hwf.closed a hv ha b hb) hfr1.mono
      · by_cases hhigh : a < c1
        · exact (hfr1.inner a hv (Nat.le_of_not_lt hlow) hhigh ha b hb).2
        · rw [hb1 a (Nat.le_of_not_lt hhigh)] at ha
          cases ha
    have hagree2 : ∀ (rr : Nat), rr < S.fresh →
        ∀ x, ReachH S.heap rr x → h2 x = S.heap x := by
      intro rr hrr x hx
      have hxlt : x < S.fresh := wf_reach_lt S hwf rr hrr x hx
      rw [hfr2.low x (lt_of_lt_of_le hxlt hfr1.mono), hfr1.low x hxlt]
    have hr1reach : ∀ x, ReachH h2 r1 x → S.fresh ≤ x ∧ x < c1 := by
      intro x hx
      have hagree1 : ∀ y, ReachH h1 r1 y → h2 y = h1 y :=
        region_agree h1 h2 c1 c2 r2 hfr2 hcl1 r1 hfr1.rootLt
      exact region_reach_fresh S.heap h1 S.fresh c1 r1 hfr1 x
        ((reach_congr h1 h2 r1 hagree1 x).mp hx)
    refine ⟨?_, ?_, ?_, ?_, ?_⟩ <;> try dsimp only
    · intro a ha
      rw [hfr2.high a ha, hb1 a (le_trans hfr2.mono ha)]
    · intro a hv ha b hb
      by_cases hlow : a < c1
      · rw [hfr2.low a hlow] at ha
        exact lt_of_lt_of_le (hcl1 a hv ha b hb) hfr2.mono
      · by_cases hhigh : a < c2
        · exact (hfr2.inner a hv (Nat.le_of_not_lt hlow) hhigh ha b hb).2
        · rw [hfr2.high a (Nat.le_of_not_lt hhigh)] at ha
          rw [hb1 a (le_trans hfr2.mono (Nat.le_of_not_lt hhigh))] at ha
          cases ha
    · intro k2 r3 hk2
      rw [lookupA_cons] at hk2
      by_cases hkk : k = k2
      · rw [if_pos hkk] at hk2
        injection hk2 with hk3
        exact hk3 ▸ hfr2.rootLt
      · rw [if_neg hkk] at hk2
        exact lt_of_lt_of_le (hwf.cacheLt k2 r3 hk2)
          (le_trans hfr1.mono hfr2.mono)
    · intro rr hrr
      rcases List.mem_cons.mp hrr with rfl | hold
      · exact lt_of_lt_of_le hfr1.rootLt hfr2.mono
      · exact lt_of_lt_of_le (hwf.callerLt rr hold)
          (le_trans hfr1.mono hfr2.mono)
    · intro x hcx hcallx
      obtain ⟨k2, rc, hk2, hreach⟩ := hcx
      obtain ⟨rr, hrr, hreach2⟩ := hcallx
      rw [lookupA_cons] at hk2
      by_cases hkk : k = k2
      · rw [if_pos hkk] at hk2
        injection hk2 with hk3
        subst hk3
        have hx2 := region_reach_fresh h1 h2 c1 c2 r2 hfr2 x hreach
        rcases List.mem_cons.mp hrr with rfl | hold
        · have := hr1reach x hreach2
          omega
        · have hrrlt := hwf.callerLt rr hold
          have hreach2S : ReachH S.heap rr x :=
            (reach_congr S.heap h2 rr (hagree2 rr hrrlt) x).mp hreach2
          have := wf_reach_lt S hwf rr hrrlt x hreach2S
          have := hfr1.mono
          omega
      · rw [if_neg hkk] at hk2
        have hrclt := hwf.cacheLt k2 rc hk2
        have hreachS : ReachH S.heap rc x :=
          (reach_congr S.heap h2 rc (hagree2 rc hrclt) x).mp hreach
        have hxlt : x < S.fresh := wf_reach_lt S hwf rc hrclt x hreachS
        rcases List.mem_cons.mp hrr with rfl | hold
        · have := hr1reach x hreach2
          omega
        · have hreach2S : ReachH S.heap rr x :=
            (reach_congr S.heap h2 rr (hagree2 rr (hwf.callerLt rr hold)) x).mp
              hreach2
          exact hwf.disj x ⟨k2, rc, hk2, hreachS⟩ ⟨rr, hold, hreach2S⟩
  | mutate p hv hp hch =>
    have hplt : p < S.fresh := by
      obtain ⟨r, hr, hreach⟩ := hp
      exact wf_reach_lt S hwf r (hwf.callerLt r hr) p hreach
    refine ⟨?_, ?_, ?_, ?_, ?_⟩ <;> try dsimp only
    · intro a ha
      rw [updateH, if_neg (by omega)]
      exact hwf.bounded a ha
    · intro a hv2 ha b hb
      rw [updateH] at ha
      by_cases hap : a = p
      · rw [if_pos hap] at ha
        injection ha with ha2
        subst ha2
        obtain ⟨r, hr, hreach⟩ := hch b hb
        exact wf_reach_lt S hwf r (hwf.callerLt r hr) b hreach
      · rw [if_neg hap] at ha
        exact hwf.closed a hv2 ha b hb
    · exact hwf.cacheLt
    · exact hwf.callerLt
    · intro x hcx hcallx
      obtain ⟨k, rc, hk, hreach⟩ := hcx
      have hnp : ¬ ReachH S.heap rc p := cache_root_not_reach_p S hwf p hp k rc hk
      have hreachS : ReachH S.heap rc x :=
        (reach_congr S.heap (updateH S.heap p hv) rc
          (update_agree_outside S.heap p hv rc hnp) x).mp hreach
      obtain ⟨rr, hrr, hreach2⟩ := hcallx
      have hcall : CallerR S x := caller_reach_mutate S p hv hch x rr hrr hreach2
      exact hwf.disj x ⟨k, rc, hk, hreachS⟩ hcall

theorem step_entry (S S2 : CacheSys) (hwf : WFsys S) (hst : Step S S2)
    (k : String) (r : Nat) (hk : lookupA S.cache k = some r) :
    lookupA S2.cache k = some r ∧
      ∀ n, readVal S2.heap n r = readVal S.heap n r := by
  have hrlt : r < S.fresh := hwf.cacheLt k r hk
  cases hst with
  | hit k2 r2 h2 c2 root n v hk2 hread hfr hcopy =>
    refine ⟨hk, fun m => ?_⟩
    exact readVal_congr S.heap h2 m r
      (region_agree S.heap h2 S.fresh c2 root hfr hwf.closed r hrlt)
  | miss k2 h1 c1 r1 h2 c2 r2 v hk2 hfr1 hread1 hfr2 hread2 =>
    have hkne : ¬(k2 = k) := by
      intro he
      rw [he, hk] at hk2
      cases hk2
    refine ⟨?_, fun m => ?_⟩
    · show lookupA ((k2, r2) :: S.cache) k = some r
      rw [lookupA_cons, if_neg hkne]
      exact hk
    · refine readVal_congr S.heap h2 m r ?_
      intro x hx
      have hxlt : x < S.fresh := wf_reach_lt S hwf r hrlt x hx
      rw [hfr2.low x (lt_of_lt_of_le hxlt hfr1.mono), hfr1.low x hxlt]
  | mutate p hv hp hch =>
    refine ⟨hk, fun m => ?_⟩
    exact readVal_congr S.heap (updateH S.heap p hv) m r
      (update_agree_outside S.heap p hv r
        (cache_root_not_reach_p S hwf p hp k r hk))

theorem star_preserves_WF (S S2 : CacheSys) (hwf : WFsys S)
    (hstar : StepStar S S2) : WFsys S2 := by
  induction hstar with
  | refl => exact hwf
  | tail hab hbc ih => exact step_preserves_WF _ _ ih hbc

theorem star_entry (S S2 : CacheSys) (hwf : WFsys S) (hstar : StepStar S S2)
    (k : String) (r : Nat) (hk : lookupA S.cache k = some r) :
    lookupA S2.cache k = some r ∧
      ∀ n, readVal S2.heap n r = readVal S.heap n r := by
  induction hstar with
  | refl => exact ⟨hk, fun _ => rfl⟩
  | tail hab hbc ih =>
    obtain ⟨hk2, hread⟩ := ih
    have hwfb := star_preserves_WF _ _ hwf hab
    obtain ⟨hk3, hread3⟩ := step_entry _ _ hwfb hbc k r hk2
    exact ⟨hk3, fun n => (hread3 n).trans (hread n)⟩

set_option maxHeartbeats 400000 in
/-- C1. Resource cache isolation: starting from any well-formed state (in
particular the empty initial state), along any sequence of resolutions and
caller-side mutations of previously returned values, a cached entry keeps
its fingerprint bound to the same snapshot denoting the same value — so a
later resolution of the same fingerprint, which by the `hit` rule returns
a fresh copy of exactly that denotation, returns the unchanged value — and
no address of a stored snapshot is ever reachable from any value handed to
a caller (stored entries and returned values never alias). -/
theorem c1_cache_isolation (S0 S S2 : CacheSys) (hwf0 : WFsys S0)
    (h01 : StepStar S0 S) (h12 : StepStar S S2)
    (k : String) (r n : Nat) (v : Value)
    (hk : lookupA S.cache k = some r) (hv : readVal S.heap n r = some v) :
    lookupA S2.cache k = some r ∧
    readVal S2.heap n r = some v ∧
    (∀ m w, readVal S2.heap m r = some w → w = v) ∧
    (∀ x, CacheR S2 x → CallerR S2 x → False) := by
  have hwfS := star_preserves_WF S0 S hwf0 h01
  obtain ⟨hk2, hread⟩ := star_entry S S2 hwfS h12 k r hk
  have hwf2 := star_preserves_WF S S2 hwfS h12
  refine ⟨hk2, by rw [hread n]; exact hv, ?_, hwf2.disj⟩
  intro m w hw
  exact readVal_unique S2.heap m n r w v hw (by rw [hread n]; exact hv)

theorem initSys_WF : WFsys initSys := by
  refine ⟨?_, ?_, ?_, ?_, ?_⟩
  · intro a _
    rfl
  · intro a hv ha
    cases ha
  · intro k r hk
    cases hk
  · intro r hr
    cases hr
  · intro x hcx _
    obtain ⟨k, r, hk, _⟩ := hcx
    cases hk

theorem witness_region_one : FreshRegion initSys.heap wHeap1 0 1 0 := by
  refine ⟨by omega, by omega, by omega, ?_, ?_, ?_⟩
  · intro a ha
    omega
  · intro a ha
    unfold wHeap1
    rw [if_neg (by omega)]
    rfl
  · intro a hv _ ha2 hha b hb
    have ha0 : a = 0 := by omega
    subst ha0
    unfold wHeap1 at hha
    rw [if_pos rfl] at hha
    injection hha with hha2
    subst hha2
    cases hb

theorem witness_region_two : FreshRegion wHeap1 wHeap2 1 2 1 := by
  refine ⟨by omega, by omega, by omega, ?_, ?_, ?_⟩
  · intro a ha
    unfold wHeap2
    rw [if_neg (by omega)]
  · intro a ha
    unfold wHeap2
    rw [if_neg (by omega)]
  · intro a hv ha1 ha2 hha b hb
    have ha0 : a = 1 := by omega
    subst ha0
    unfold wHeap2 at hha
    rw [if_pos rfl] at hha
    injection hha with hha2
    subst hha2
    cases hb

theorem witness_miss_step : Step initSys wSys1 :=
  Step.miss initSys "k" wHeap1 1 0 wHeap2 2 1 (Value.int 5) rfl
    witness_region_one ⟨1, rfl⟩ witness_region_two ⟨1, rfl⟩

theorem c1_cache_isolation_witness :
    lookupA wSys1.cache "k" = some 1 ∧
    readVal wSys1.heap 1 1 = some (Value.int 5) ∧
    (∀ m w, readVal wSys1.heap m 1 = some w → w = Value.int 5) ∧
    (∀ x, CacheR wSys1 x → CallerR wSys1 x → False) :=
  c1_cache_isolation initSys wSys1 wSys1 initSys_WF
    (Relation.ReflTransGen.single witness_miss_step) Relation.ReflTransGen.refl
    "k" 1 1 (Value.int 5) rfl rfl

end Swapi
